import Mathlib

/-!
A verification development for the tree-to-graph compiler of the chinook
repository (the compiler variant built around explicit `YieldExpression` /
`outs` arrays: `compileTreeDefinition`, `traverseStreamExpr`,
`compileGlobalTreeDefinition`).

The program tree, the compiled-definition record and the compiler itself are
embedded shallowly below.  Identifiers are strings; JavaScript `Set`s over
node object identities are embedded as lists of nodes with structural
membership; JavaScript exceptions are embedded with `Except`.  The graph
traversal of the source is a general recursion (it jumps through the scope
environment), so the embedded functions take a fuel argument; a theorem below
shows an explicitly computed fuel bound always suffices, so the fuel never
changes the modelled behaviour.

`Environment.ts`, `Traversal.ts` (`visitChildren`) and `functionExprId` are
imported by the compiler but their sources are not part of the repository
snapshot; they are modelled from the specification where noted.
-/

namespace Chinook

abbrev StreamID := String
abbrev FunctionID := String
abbrev ApplicationID := String

/-- A literal value carried by a literal node (`val: any` in the source;
the compiler never inspects it, it is copied into the constant-stream spec). -/
inductive Value where
  | undef
  | num (n : Int)
  | text (s : String)
  | bool (b : Bool)
  deriving DecidableEq, Repr

/-- One declared output of an application (`ApplicationOut` in `Tree.ts`):
its stream id and an optional local name. -/
structure ApplicationOut where
  sid : StreamID
  name : Option String
  deriving DecidableEq, Repr

mutual

/-- Stream-expression nodes of the program tree (`StreamExpressionNode`):
the four simple literals, a stream reference and an application. -/
inductive StreamExpressionNode where
  | undefinedLiteral (sid : StreamID)
  | numberLiteral (sid : StreamID) (val : Int)
  | textLiteral (sid : StreamID) (val : String)
  | booleanLiteral (sid : StreamID) (val : Bool)
  | streamReference (ref : StreamID)
  | application (aid : ApplicationID) (outs : List ApplicationOut)
      (func : FunctionExprNode) (sargs : List StreamExpressionNode)
      (fargs : List FunctionExprNode)

/-- A function expression: either a reference to a function id or an inline
function definition.  The compiler only ever takes its `functionExprId`. -/
inductive FunctionExprNode where
  | fref (fid : FunctionID)
  | fdef (d : FunctionDefinitionNode)

/-- A function definition: native (no body visible to the compiler) or a
tree function definition. -/
inductive FunctionDefinitionNode where
  | native (fid : FunctionID)
  | tree (d : TreeFunctionDefinitionNode)

/-- A tree function definition (`TreeFunctionDefinitionNode`): its function
id, stream-parameter ids, function-parameter ids and the body's expressions
(`definition.body.exprs` in the source). -/
inductive TreeFunctionDefinitionNode where
  | mk (fid : FunctionID) (sparams : List StreamID) (fparams : List FunctionID)
      (bodyExprs : List BodyExpressionNode)

/-- One entry of a function body: a loose stream expression, a local function
definition, or a yield expression marking an output index. -/
inductive BodyExpressionNode where
  | streamExpr (e : StreamExpressionNode)
  | funcDef (d : FunctionDefinitionNode)
  | yieldExpr (idx : Nat) (e : StreamExpressionNode)

end

/-!
Structural equality on the node types (the JavaScript sets of node object
identities are embedded as lists with structural membership).  The deriving
handler does not support this mutual family, so equality is defined by hand
and proved lawful.
-/

mutual

def seBeq : StreamExpressionNode → StreamExpressionNode → Bool
  | .undefinedLiteral s1, .undefinedLiteral s2 => s1 == s2
  | .numberLiteral s1 v1, .numberLiteral s2 v2 => s1 == s2 && v1 == v2
  | .textLiteral s1 v1, .textLiteral s2 v2 => s1 == s2 && v1 == v2
  | .booleanLiteral s1 v1, .booleanLiteral s2 v2 => s1 == s2 && v1 == v2
  | .streamReference r1, .streamReference r2 => r1 == r2
  | .application a1 o1 f1 s1 g1, .application a2 o2 f2 s2 g2 =>
      a1 == a2 && decide (o1 = o2) && feBeq f1 f2 && seListBeq s1 s2 && feListBeq g1 g2
  | _, _ => false
termination_by structural a _ => a

def seListBeq : List StreamExpressionNode → List StreamExpressionNode → Bool
  | [], [] => true
  | a :: as, b :: bs => seBeq a b && seListBeq as bs
  | _, _ => false
termination_by structural a _ => a

def feBeq : FunctionExprNode → FunctionExprNode → Bool
  | .fref f1, .fref f2 => f1 == f2
  | .fdef d1, .fdef d2 => fdBeq d1 d2
  | _, _ => false
termination_by structural a _ => a

def feListBeq : List FunctionExprNode → List FunctionExprNode → Bool
  | [], [] => true
  | a :: as, b :: bs => feBeq a b && feListBeq as bs
  | _, _ => false
termination_by structural a _ => a

def fdBeq : FunctionDefinitionNode → FunctionDefinitionNode → Bool
  | .native f1, .native f2 => f1 == f2
  | .tree d1, .tree d2 => tfdBeq d1 d2
  | _, _ => false
termination_by structural a _ => a

def tfdBeq : TreeFunctionDefinitionNode → TreeFunctionDefinitionNode → Bool
  | .mk f1 sp1 fp1 b1, .mk f2 sp2 fp2 b2 =>
      f1 == f2 && decide (sp1 = sp2) && decide (fp1 = fp2) && beListBeq b1 b2
termination_by structural a _ => a

def beBeq : BodyExpressionNode → BodyExpressionNode → Bool
  | .streamExpr e1, .streamExpr e2 => seBeq e1 e2
  | .funcDef d1, .funcDef d2 => fdBeq d1 d2
  | .yieldExpr i1 e1, .yieldExpr i2 e2 => i1 == i2 && seBeq e1 e2
  | _, _ => false
termination_by structural a _ => a

def beListBeq : List BodyExpressionNode → List BodyExpressionNode → Bool
  | [], [] => true
  | a :: as, b :: bs => beBeq a b && beListBeq as bs
  | _, _ => false
termination_by structural a _ => a

end

mutual

theorem seBeq_eq : ∀ a b, seBeq a b = true → a = b
  | .undefinedLiteral _, .undefinedLiteral _, h => by
      simp only [seBeq, beq_iff_eq] at h; rw [h]
  | .numberLiteral _ _, .numberLiteral _ _, h => by
      simp only [seBeq, Bool.and_eq_true, beq_iff_eq] at h; rw [h.1, h.2]
  | .textLiteral _ _, .textLiteral _ _, h => by
      simp only [seBeq, Bool.and_eq_true, beq_iff_eq] at h; rw [h.1, h.2]
  | .booleanLiteral _ _, .booleanLiteral _ _, h => by
      simp only [seBeq, Bool.and_eq_true, beq_iff_eq] at h; rw [h.1, h.2]
  | .streamReference _, .streamReference _, h => by
      simp only [seBeq, beq_iff_eq] at h; rw [h]
  | .application _ _ f1 s1 g1, .application _ _ f2 s2 g2, h => by
      simp only [seBeq, Bool.and_eq_true, beq_iff_eq, decide_eq_true_eq] at h
      obtain ⟨⟨⟨⟨h1, h2⟩, h3⟩, h4⟩, h5⟩ := h
      rw [h1, h2, feBeq_eq f1 f2 h3, seListBeq_eq s1 s2 h4, feListBeq_eq g1 g2 h5]
  | .undefinedLiteral _, .numberLiteral _ _, h => by simp [seBeq] at h
  | .undefinedLiteral _, .textLiteral _ _, h => by simp [seBeq] at h
  | .undefinedLiteral _, .booleanLiteral _ _, h => by simp [seBeq] at h
  | .undefinedLiteral _, .streamReference _, h => by simp [seBeq] at h
  | .undefinedLiteral _, .application _ _ _ _ _, h => by simp [seBeq] at h
  | .numberLiteral _ _, .undefinedLiteral _, h => by simp [seBeq] at h
  | .numberLiteral _ _, .textLiteral _ _, h => by simp [seBeq] at h
  | .numberLiteral _ _, .booleanLiteral _ _, h => by simp [seBeq] at h
  | .numberLiteral _ _, .streamReference _, h => by simp [seBeq] at h
  | .numberLiteral _ _, .application _ _ _ _ _, h => by simp [seBeq] at h
  | .textLiteral _ _, .undefinedLiteral _, h => by simp [seBeq] at h
  | .textLiteral _ _, .numberLiteral _ _, h => by simp [seBeq] at h
  | .textLiteral _ _, .booleanLiteral _ _, h => by simp [seBeq] at h
  | .textLiteral _ _, .streamReference _, h => by simp [seBeq] at h
  | .textLiteral _ _, .application _ _ _ _ _, h => by simp [seBeq] at h
  | .booleanLiteral _ _, .undefinedLiteral _, h => by simp [seBeq] at h
  | .booleanLiteral _ _, .numberLiteral _ _, h => by simp [seBeq] at h
  | .booleanLiteral _ _, .textLiteral _ _, h => by simp [seBeq] at h
  | .booleanLiteral _ _, .streamReference _, h => by simp [seBeq] at h
  | .booleanLiteral _ _, .application _ _ _ _ _, h => by simp [seBeq] at h
  | .streamReference _, .undefinedLiteral _, h => by simp [seBeq] at h
  | .streamReference _, .numberLiteral _ _, h => by simp [seBeq] at h
  | .streamReference _, .textLiteral _ _, h => by simp [seBeq] at h
  | .streamReference _, .booleanLiteral _ _, h => by simp [seBeq] at h
  | .streamReference _, .application _ _ _ _ _, h => by simp [seBeq] at h
  | .application _ _ _ _ _, .undefinedLiteral _, h => by simp [seBeq] at h
  | .application _ _ _ _ _, .numberLiteral _ _, h => by simp [seBeq] at h
  | .application _ _ _ _ _, .textLiteral _ _, h => by simp [seBeq] at h
  | .application _ _ _ _ _, .booleanLiteral _ _, h => by simp [seBeq] at h
  | .application _ _ _ _ _, .streamReference _, h => by simp [seBeq] at h
termination_by structural a _ _ => a

theorem seListBeq_eq : ∀ a b, seListBeq a b = true → a = b
  | [], [], _ => rfl
  | a :: as, b :: bs, h => by
      simp only [seListBeq, Bool.and_eq_true] at h
      rw [seBeq_eq a b h.1, seListBeq_eq as bs h.2]
  | [], _ :: _, h => by simp [seListBeq] at h
  | _ :: _, [], h => by simp [seListBeq] at h
termination_by structural a _ _ => a

theorem feBeq_eq : ∀ a b, feBeq a b = true → a = b
  | .fref _, .fref _, h => by
      simp only [feBeq, beq_iff_eq] at h; rw [h]
  | .fdef d1, .fdef d2, h => by
      simp only [feBeq] at h; rw [fdBeq_eq d1 d2 h]
  | .fref _, .fdef _, h => by simp [feBeq] at h
  | .fdef _, .fref _, h => by simp [feBeq] at h
termination_by structural a _ _ => a

theorem feListBeq_eq : ∀ a b, feListBeq a b = true → a = b
  | [], [], _ => rfl
  | a :: as, b :: bs, h => by
      simp only [feListBeq, Bool.and_eq_true] at h
      rw [feBeq_eq a b h.1, feListBeq_eq as bs h.2]
  | [], _ :: _, h => by simp [feListBeq] at h
  | _ :: _, [], h => by simp [feListBeq] at h
termination_by structural a _ _ => a

theorem fdBeq_eq : ∀ a b, fdBeq a b = true → a = b
  | .native _, .native _, h => by
      simp only [fdBeq, beq_iff_eq] at h; rw [h]
  | .tree d1, .tree d2, h => by
      simp only [fdBeq] at h; rw [tfdBeq_eq d1 d2 h]
  | .native _, .tree _, h => by simp [fdBeq] at h
  | .tree _, .native _, h => by simp [fdBeq] at h
termination_by structural a _ _ => a

theorem tfdBeq_eq : ∀ a b, tfdBeq a b = true → a = b
  | .mk _ _ _ b1, .mk _ _ _ b2, h => by
      simp only [tfdBeq, Bool.and_eq_true, beq_iff_eq, decide_eq_true_eq] at h
      obtain ⟨⟨⟨h1, h2⟩, h3⟩, h4⟩ := h
      rw [h1, h2, h3, beListBeq_eq b1 b2 h4]
termination_by structural a _ _ => a

theorem beBeq_eq : ∀ a b, beBeq a b = true → a = b
  | .streamExpr e1, .streamExpr e2, h => by
      simp only [beBeq] at h; rw [seBeq_eq e1 e2 h]
  | .funcDef d1, .funcDef d2, h => by
      simp only [beBeq] at h; rw [fdBeq_eq d1 d2 h]
  | .yieldExpr _ e1, .yieldExpr _ e2, h => by
      simp only [beBeq, Bool.and_eq_true, beq_iff_eq] at h
      rw [h.1, seBeq_eq e1 e2 h.2]
  | .streamExpr _, .funcDef _, h => by simp [beBeq] at h
  | .streamExpr _, .yieldExpr _ _, h => by simp [beBeq] at h
  | .funcDef _, .streamExpr _, h => by simp [beBeq] at h
  | .funcDef _, .yieldExpr _ _, h => by simp [beBeq] at h
  | .yieldExpr _ _, .streamExpr _, h => by simp [beBeq] at h
  | .yieldExpr _ _, .funcDef _, h => by simp [beBeq] at h
termination_by structural a _ _ => a

theorem beListBeq_eq : ∀ a b, beListBeq a b = true → a = b
  | [], [], _ => rfl
  | a :: as, b :: bs, h => by
      simp only [beListBeq, Bool.and_eq_true] at h
      rw [beBeq_eq a b h.1, beListBeq_eq as bs h.2]
  | [], _ :: _, h => by simp [beListBeq] at h
  | _ :: _, [], h => by simp [beListBeq] at h
termination_by structural a _ _ => a

end

mutual

theorem seBeq_refl : ∀ a, seBeq a a = true
  | .undefinedLiteral _ => by simp [seBeq]
  | .numberLiteral _ _ => by simp [seBeq]
  | .textLiteral _ _ => by simp [seBeq]
  | .booleanLiteral _ _ => by simp [seBeq]
  | .streamReference _ => by simp [seBeq]
  | .application _ _ f s g => by
      simp [seBeq, feBeq_refl f, seListBeq_refl s, feListBeq_refl g]
termination_by structural a => a

theorem seListBeq_refl : ∀ a, seListBeq a a = true
  | [] => by simp [seListBeq]
  | a :: as => by simp [seListBeq, seBeq_refl a, seListBeq_refl as]
termination_by structural a => a

theorem feBeq_refl : ∀ a, feBeq a a = true
  | .fref _ => by simp [feBeq]
  | .fdef d => by simp [feBeq, fdBeq_refl d]
termination_by structural a => a

theorem feListBeq_refl : ∀ a, feListBeq a a = true
  | [] => by simp [feListBeq]
  | a :: as => by simp [feListBeq, feBeq_refl a, feListBeq_refl as]
termination_by structural a => a

theorem fdBeq_refl : ∀ a, fdBeq a a = true
  | .native _ => by simp [fdBeq]
  | .tree d => by simp [fdBeq, tfdBeq_refl d]
termination_by structural a => a

theorem tfdBeq_refl : ∀ a, tfdBeq a a = true
  | .mk _ _ _ b => by simp [tfdBeq, beListBeq_refl b]
termination_by structural a => a

theorem beBeq_refl : ∀ a, beBeq a a = true
  | .streamExpr e => by simp [beBeq, seBeq_refl e]
  | .funcDef d => by simp [beBeq, fdBeq_refl d]
  | .yieldExpr _ e => by simp [beBeq, seBeq_refl e]
termination_by structural a => a

theorem beListBeq_refl : ∀ a, beListBeq a a = true
  | [] => by simp [beListBeq]
  | a :: as => by simp [beListBeq, beBeq_refl a, beListBeq_refl as]
termination_by structural a => a

end

instance : DecidableEq StreamExpressionNode := fun a b =>
  decidable_of_iff (seBeq a b = true) ⟨seBeq_eq a b, fun h => h ▸ seBeq_refl a⟩

instance : DecidableEq FunctionDefinitionNode := fun a b =>
  decidable_of_iff (fdBeq a b = true) ⟨fdBeq_eq a b, fun h => h ▸ fdBeq_refl a⟩

instance : DecidableEq TreeFunctionDefinitionNode := fun a b =>
  decidable_of_iff (tfdBeq a b = true) ⟨tfdBeq_eq a b, fun h => h ▸ tfdBeq_refl a⟩

def TreeFunctionDefinitionNode.fid : TreeFunctionDefinitionNode → FunctionID
  | .mk fid _ _ _ => fid

def TreeFunctionDefinitionNode.sparams : TreeFunctionDefinitionNode → List StreamID
  | .mk _ sparams _ _ => sparams

def TreeFunctionDefinitionNode.fparams : TreeFunctionDefinitionNode → List FunctionID
  | .mk _ _ fparams _ => fparams

def TreeFunctionDefinitionNode.bodyExprs : TreeFunctionDefinitionNode → List BodyExpressionNode
  | .mk _ _ _ bodyExprs => bodyExprs

/-- The function id of a function definition node (`fid` field). -/
def FunctionDefinitionNode.fid : FunctionDefinitionNode → FunctionID
  | .native fid => fid
  | .tree d => d.fid

/-- Modelled from the spec: `functionExprId` (imported from `TreeUtil.ts`,
whose snapshot does not contain it) resolves a function expression to "its
target function id": the referenced id for a reference, the defined id for an
inline definition. -/
def functionExprId : FunctionExprNode → FunctionID
  | .fref fid => fid
  | .fdef d => d.fid

/-- `streamExprReturnedId` from `TreeUtil.ts`: the stream id that represents
the value of the expression.  For an application it is the id of the first
output without a name, and `none` when every output is named. -/
def streamExprReturnedId : StreamExpressionNode → Option StreamID
  | .undefinedLiteral sid => some sid
  | .numberLiteral sid _ => some sid
  | .textLiteral sid _ => some sid
  | .booleanLiteral sid _ => some sid
  | .streamReference ref => some ref
  | .application _ outs _ _ _ =>
      (outs.find? (fun out => out.name.isNone)).map ApplicationOut.sid

/-!
## Scope environments

Modelled from the spec: `Environment.ts` is imported by the compiler but is
not part of the repository snapshot.  Per the spec (§4.1) it is "a chained
mapping from identifier to value, where a lookup checks the local frame
first, then the parent chain", supporting a membership test (visibility
anywhere in the chain, as required by the external-reference rule of §4.3),
get-or-fail, and set into the local frame (set fails only on a duplicate in
the local frame).  A frame is an association list; an environment is the
chain of frames, head = local frame.  `new Environment(outer)` prepends a
fresh empty frame to `outer`; `new Environment()` is a single empty frame.
-/

abbrev Frame (V : Type) := List (String × V)

abbrev Env (V : Type) := List (Frame V)

/-- Does a single frame contain the key? -/
def frameHas (f : Frame V) (k : String) : Bool :=
  f.any (fun p => p.1 == k)

/-- Chain-wide membership test (`Environment.has`). -/
def Env.has (env : Env V) (k : String) : Bool :=
  env.any (fun f => frameHas f k)

/-- Chained lookup (`Environment.get`): the local frame first, then the
parent chain; `none` when the key is visible nowhere. -/
def Env.get (env : Env V) (k : String) : Option V :=
  match env with
  | [] => none
  | f :: rest =>
      match f.lookup k with
      | some v => some v
      | none => Env.get rest k

/-- Insert into the local frame (`Environment.set` after its duplicate guard;
every call site in the compiler guards with a membership test first). -/
def Env.setLocal (env : Env V) (k : String) (v : V) : Env V :=
  match env with
  | [] => [[(k, v)]]
  | f :: rest => ((k, v) :: f) :: rest

/-- Modelled from the spec: `Environment.set` itself "fails if already
present in the local frame".  Used for seeding the global function
environment. -/
def Env.setChecked (env : Env V) (k : String) (v : V) : Option (Env V) :=
  match env with
  | [] => some [[(k, v)]]
  | f :: rest => if frameHas f k then none else some (((k, v) :: f) :: rest)

/-!
## The compiled-definition record and compiler errors
-/

/-- A classified compiler failure.  `compilationError` embeds the source's
`CompilationError` class (user-facing, recoverable), `internalError` embeds a
plain thrown `Error` (invariant violation).  `outOfFuel` is an artifact of
the fuel embedding of the recursion; a theorem below computes a fuel bound
at which it never occurs. -/
inductive CompErr where
  | compilationError (msg : String)
  | internalError (msg : String)
  | outOfFuel
  deriving DecidableEq, Repr

/-- `ConstStreamSpec`: one constant stream (id, literal value). -/
structure ConstStreamSpec where
  sid : StreamID
  val : Value
  deriving DecidableEq, Repr

/-- `AppSpec`: one application spec (output stream ids, application id,
target function id, resolved stream-argument ids, resolved
function-argument ids). -/
structure AppSpec where
  sids : List StreamID
  appId : ApplicationID
  funcId : FunctionID
  sargIds : List StreamID
  fargIds : List FunctionID
  deriving DecidableEq, Repr

/-- `CompiledDefinition`.  `localDefs` holds the `LocalFunctionDefinition`
entries as pairs (function id, nested compiled definition); it must be an
inductive rather than a structure because it nests itself there.
`yieldIds` is `Array<StreamID>` filled by JavaScript sparse writes
`yieldIds[idx] = sid`, so a position never written holds a hole, embedded
as `none`. -/
inductive CompiledDefinition where
  | mk (streamParamIds : List StreamID) (funcParamIds : List FunctionID)
      (constStreams : List ConstStreamSpec) (apps : List AppSpec)
      (localDefs : List (FunctionID × CompiledDefinition))
      (yieldIds : List (Option StreamID))

def CompiledDefinition.streamParamIds : CompiledDefinition → List StreamID
  | .mk v _ _ _ _ _ => v

def CompiledDefinition.funcParamIds : CompiledDefinition → List FunctionID
  | .mk _ v _ _ _ _ => v

def CompiledDefinition.constStreams : CompiledDefinition → List ConstStreamSpec
  | .mk _ _ v _ _ _ => v

def CompiledDefinition.apps : CompiledDefinition → List AppSpec
  | .mk _ _ _ v _ _ => v

def CompiledDefinition.localDefs : CompiledDefinition → List (FunctionID × CompiledDefinition)
  | .mk _ _ _ _ v _ => v

def CompiledDefinition.yieldIds : CompiledDefinition → List (Option StreamID)
  | .mk _ _ _ _ _ v => v

abbrev CompilationStreamEnvironment := Env (Option StreamExpressionNode)
abbrev CompilationFunctionEnvironment := Env FunctionDefinitionNode

/-!
## Local Definition Collector (`visitToFindLocals` and the `sparams` loop)

The traversal order over an application's children (`visitChildren` from
`Traversal.ts`, whose source is not in the repository snapshot) is modelled
from the spec's pre-order walk as: the output registrations, then the stream
arguments in declaration order, then the function expression, then the
function arguments.
The registrations themselves follow the source exactly: guard with the
chain-wide `Environment.has`, throw `'must be unique'` on a hit, otherwise
`set` into the local frame and add the id to the local-id set.
-/

structure CollectState where
  streamEnvironment : CompilationStreamEnvironment
  functionEnvironment : CompilationFunctionEnvironment
  localStreamIds : List StreamID
  localFunctionIds : List FunctionID

/-- Register one defined stream id (the guarded `streamEnvironment.set` /
`localStreamIds.add` step of the collector; `v = none` is the
parameter-origin null marker). -/
def registerStreamDef (st : CollectState) (sid : StreamID)
    (v : Option StreamExpressionNode) : Except CompErr CollectState :=
  if Env.has st.streamEnvironment sid then .error (.internalError "must be unique")
  else .ok { st with streamEnvironment := Env.setLocal st.streamEnvironment sid v,
                     localStreamIds := st.localStreamIds ++ [sid] }

/-- Register one locally defined function (the guarded
`functionEnvironment.set` / `localFunctionIds.add` step). -/
def registerFunctionDef (st : CollectState) (d : FunctionDefinitionNode) :
    Except CompErr CollectState :=
  if Env.has st.functionEnvironment d.fid then .error (.internalError "must be unique")
  else .ok { st with functionEnvironment := Env.setLocal st.functionEnvironment d.fid d,
                     localFunctionIds := st.localFunctionIds ++ [d.fid] }

/-- The stream-parameter loop of `compileTreeDefinition` (params map to the
null marker). -/
def registerSparams : List StreamID → CollectState → Except CompErr CollectState
  | [], st => .ok st
  | sid :: rest, st =>
      match registerStreamDef st sid none with
      | .error e => .error e
      | .ok st1 => registerSparams rest st1

/-- The `node.outs.forEach` registration loop of an application. -/
def registerOuts : StreamExpressionNode → List ApplicationOut → CollectState → Except CompErr CollectState
  | _, [], st => .ok st
  | e, out :: rest, st =>
      match registerStreamDef st out.sid (some e) with
      | .error er => .error er
      | .ok st1 => registerOuts e rest st1

/-- A function expression met by the collector: an inline definition is
registered as a local definition (and not descended into), a reference
registers nothing. -/
def visitFuncExprToFindLocals : FunctionExprNode → CollectState → Except CompErr CollectState
  | .fref _, st => .ok st
  | .fdef d, st => registerFunctionDef st d

def visitFargsToFindLocals : List FunctionExprNode → CollectState → Except CompErr CollectState
  | [], st => .ok st
  | fe :: rest, st =>
      match visitFuncExprToFindLocals fe st with
      | .error e => .error e
      | .ok st1 => visitFargsToFindLocals rest st1

mutual

/-- `visitToFindLocals` restricted to one stream-expression node: literals
register their own sid, references register nothing, applications register
every output sid and then get their children visited; the walk never
descends into a function definition. -/
def visitToFindLocals : StreamExpressionNode → CollectState → Except CompErr CollectState
  | .undefinedLiteral sid, st => registerStreamDef st sid (some (.undefinedLiteral sid))
  | .numberLiteral sid v, st => registerStreamDef st sid (some (.numberLiteral sid v))
  | .textLiteral sid v, st => registerStreamDef st sid (some (.textLiteral sid v))
  | .booleanLiteral sid v, st => registerStreamDef st sid (some (.booleanLiteral sid v))
  | .streamReference _, st => .ok st
  | .application aid outs func sargs fargs, st =>
      match registerOuts (.application aid outs func sargs fargs) outs st with
      | .error e => .error e
      | .ok st1 =>
          match visitSargsToFindLocals sargs st1 with
          | .error e => .error e
          | .ok st2 =>
              match visitFuncExprToFindLocals func st2 with
              | .error e => .error e
              | .ok st3 => visitFargsToFindLocals fargs st3
termination_by structural e _ => e

def visitSargsToFindLocals : List StreamExpressionNode → CollectState → Except CompErr CollectState
  | [], st => .ok st
  | e :: rest, st =>
      match visitToFindLocals e st with
      | .error er => .error er
      | .ok st1 => visitSargsToFindLocals rest st1
termination_by structural l _ => l

end

/-- One body entry under the collector: a yield is visited through to its
wrapped expression, a function definition is registered without descent. -/
def visitBodyExprToFindLocals : BodyExpressionNode → CollectState → Except CompErr CollectState
  | .streamExpr e, st => visitToFindLocals e st
  | .yieldExpr _ e, st => visitToFindLocals e st
  | .funcDef d, st => registerFunctionDef st d

/-- `visitChildren(definition.body, visitToFindLocals)`. -/
def visitBodyToFindLocals : List BodyExpressionNode → CollectState → Except CompErr CollectState
  | [], st => .ok st
  | be :: rest, st =>
      match visitBodyExprToFindLocals be st with
      | .error e => .error e
      | .ok st1 => visitBodyToFindLocals rest st1

/-!
## Topological Graph Compiler (`traverseStreamExpr`)
-/

/-- The mutable traversal state of one `compileTreeDefinition` call: the
emission lists, the externally-referenced-id set and the two mark sets. -/
structure TraverseState where
  constStreams : List ConstStreamSpec
  apps : List AppSpec
  externalReferencedStreamIds : List StreamID
  temporaryMarked : List StreamExpressionNode
  permanentMarked : List StreamExpressionNode

def initTraverseState : TraverseState := ⟨[], [], [], [], []⟩

/-- The per-scope context read by `traverseStreamExpr`: the local-id set and
the two completed environments. -/
structure TraverseCtx where
  localStreamIds : List StreamID
  streamEnvironment : CompilationStreamEnvironment
  functionEnvironment : CompilationFunctionEnvironment

/-- The `node.fargs` loop of the application case: each function argument's
id is resolved in the function environment (failing when absent) and
collected; no recursion into its body happens here. -/
def resolveFargs (ctx : TraverseCtx) : List FunctionExprNode → Except CompErr (List FunctionID)
  | [] => .ok []
  | farg :: rest =>
      match Env.get ctx.functionEnvironment (functionExprId farg) with
      | none => .error (.internalError "")
      | some _ =>
          match resolveFargs ctx rest with
          | .error e => .error e
          | .ok fids => .ok (functionExprId farg :: fids)

/-- The `node.sargs` loop of the application case, parameterized by the
traversal used on each argument (this breaks the mutual recursion so that
`traverseStreamExpr` is structural on its fuel): traverse each stream
argument, then take its returned id (failing when it has none). -/
def traverseSargsWith (tr : StreamExpressionNode → TraverseState → Except CompErr TraverseState) :
    List StreamExpressionNode → TraverseState → Except CompErr (List StreamID × TraverseState)
  | [], st => .ok ([], st)
  | sarg :: rest, st =>
      match tr sarg st with
      | .error e => .error e
      | .ok st1 =>
          match streamExprReturnedId sarg with
          | none => .error (.internalError "")
          | some rid =>
              match traverseSargsWith tr rest st1 with
              | .error e => .error e
              | .ok (ids, st2) => .ok (rid :: ids, st2)

/-- `traverseStreamExpr`.  The fuel argument only bounds the depth of the
recursion (which jumps through the stream environment and is therefore not
structural); `compileTreeDefinition_no_outOfFuel` below computes a bound at
which the fuel never runs out, so the fuel is invisible at that bound. -/
def traverseStreamExpr (ctx : TraverseCtx) : Nat → StreamExpressionNode → TraverseState → Except CompErr TraverseState
  | 0, _, _ => .error .outOfFuel
  | fuel + 1, node, st =>
      if node ∈ st.permanentMarked then .ok st
      else if node ∈ st.temporaryMarked then .error (.compilationError "graph cycle")
      else
        match node with
        | .undefinedLiteral sid =>
            .ok { st with constStreams := st.constStreams ++ [⟨sid, .undef⟩],
                          permanentMarked := List.insert (.undefinedLiteral sid) st.permanentMarked }
        | .numberLiteral sid v =>
            .ok { st with constStreams := st.constStreams ++ [⟨sid, .num v⟩],
                          permanentMarked := List.insert (.numberLiteral sid v) st.permanentMarked }
        | .textLiteral sid v =>
            .ok { st with constStreams := st.constStreams ++ [⟨sid, .text v⟩],
                          permanentMarked := List.insert (.textLiteral sid v) st.permanentMarked }
        | .booleanLiteral sid v =>
            .ok { st with constStreams := st.constStreams ++ [⟨sid, .bool v⟩],
                          permanentMarked := List.insert (.booleanLiteral sid v) st.permanentMarked }
        | .streamReference ref =>
            if ref ∈ ctx.localStreamIds then
              match Env.get ctx.streamEnvironment ref with
              | some none =>
                  .ok { st with permanentMarked := List.insert (.streamReference ref) st.permanentMarked }
              | none => .error (.internalError "")
              | some (some target) =>
                  match (traverseStreamExpr ctx fuel target
                      { st with temporaryMarked :=
                          List.insert (StreamExpressionNode.streamReference ref) st.temporaryMarked }) with
                  | .error e => .error e
                  | .ok st2 =>
                      .ok { st2 with
                            temporaryMarked :=
                              st2.temporaryMarked.erase (StreamExpressionNode.streamReference ref),
                            permanentMarked :=
                              List.insert (StreamExpressionNode.streamReference ref)
                                st2.permanentMarked }
            else
              if Env.has ctx.streamEnvironment ref then
                .ok { st with
                      externalReferencedStreamIds := List.insert ref st.externalReferencedStreamIds,
                      permanentMarked := List.insert (.streamReference ref) st.permanentMarked }
              else .error (.compilationError "")
        | .application aid outs func sargs fargs =>
            match Env.get ctx.functionEnvironment (functionExprId func) with
            | none => .error (.compilationError "")
            | some _ =>
                match (traverseSargsWith (traverseStreamExpr ctx fuel) sargs
                    { st with temporaryMarked :=
                        List.insert (StreamExpressionNode.application aid outs func sargs fargs) st.temporaryMarked }) with
                | .error e => .error e
                | .ok (sargIds, st2) =>
                    match resolveFargs ctx fargs with
                    | .error e => .error e
                    | .ok fargIds =>
                        .ok { st2 with
                              temporaryMarked :=
                                st2.temporaryMarked.erase
                                  (StreamExpressionNode.application aid outs func sargs fargs),
                              apps := st2.apps ++
                                [⟨outs.map ApplicationOut.sid, aid, functionExprId func,
                                  sargIds, fargIds⟩],
                              permanentMarked :=
                                List.insert
                                  (StreamExpressionNode.application aid outs func sargs fargs)
                                  st2.permanentMarked }
termination_by structural fuel _ _ => fuel

/-- JavaScript sparse-array write `a[i] = v`: an existing index is
overwritten, a write past the end fills the skipped indices with holes. -/
def sparseSet (l : List (Option StreamID)) (i : Nat) (v : StreamID) : List (Option StreamID) :=
  if i < l.length then l.set i (some v)
  else l ++ List.replicate (i - l.length) none ++ [some v]

/-- The top-level body pass: yields traverse their wrapped expression and
record the returned id at the declared index; loose stream expressions are
just traversed; any other body entry throws (`// TODO: this could also be a
function expression`). -/
def bodyPass (ctx : TraverseCtx) (fuel : Nat) : List BodyExpressionNode → TraverseState → List (Option StreamID) → Except CompErr (TraverseState × List (Option StreamID))
  | [], st, yieldIds => .ok (st, yieldIds)
  | .yieldExpr idx e :: rest, st, yieldIds =>
      match traverseStreamExpr ctx fuel e st with
      | .error err => .error err
      | .ok st1 =>
          match streamExprReturnedId e with
          | none => .error (.internalError "")
          | some rid => bodyPass ctx fuel rest st1 (sparseSet yieldIds idx rid)
  | .streamExpr e :: rest, st, yieldIds =>
      match traverseStreamExpr ctx fuel e st with
      | .error err => .error err
      | .ok st1 => bodyPass ctx fuel rest st1 yieldIds
  | .funcDef _ :: _, _, _ => .error (.internalError "")

/-- The `localFunctionIds` loop, parameterized by the compilation used on a
nested definition (this keeps `compileTreeDefinition` structural on its
fuel): look each collected function id up, skip natives, recursively compile
tree definitions (discarding their external-id set) into the
nested-definitions list. -/
def compileLocalDefsWith
    (cmp : TreeFunctionDefinitionNode → CompilationStreamEnvironment → CompilationFunctionEnvironment → Except CompErr (CompiledDefinition × List StreamID)) :
    List FunctionID → CompilationFunctionEnvironment → CompilationStreamEnvironment → Except CompErr (List (FunctionID × CompiledDefinition))
  | [], _, _ => .ok []
  | fid :: rest, functionEnvironment, streamEnvironment =>
      match Env.get functionEnvironment fid with
      | none => .error (.internalError "")
      | some (.native _) => compileLocalDefsWith cmp rest functionEnvironment streamEnvironment
      | some (.tree d) =>
          match cmp d streamEnvironment functionEnvironment with
          | .error e => .error e
          | .ok (cd, _) =>
              match compileLocalDefsWith cmp rest functionEnvironment streamEnvironment with
              | .error e => .error e
              | .ok restDefs => .ok ((fid, cd) :: restDefs)

/-- `compileTreeDefinition`: chain fresh local frames onto the outer
environments, register the stream parameters, collect local definitions,
recursively compile every locally defined tree function, then run the
topological body pass and assemble the compiled definition together with the
externally-referenced-stream-ids set. -/
def compileTreeDefinition : Nat → TreeFunctionDefinitionNode → CompilationStreamEnvironment → CompilationFunctionEnvironment → Except CompErr (CompiledDefinition × List StreamID)
  | 0, _, _, _ => .error .outOfFuel
  | fuel + 1, defn, outerStreamEnvironment, outerFunctionEnvironment =>
      match registerSparams defn.sparams
          ⟨[] :: outerStreamEnvironment, [] :: outerFunctionEnvironment, [], []⟩ with
      | .error e => .error e
      | .ok st1 =>
          match visitBodyToFindLocals defn.bodyExprs st1 with
          | .error e => .error e
          | .ok stc =>
              match compileLocalDefsWith (fun d se fe => compileTreeDefinition fuel d se fe)
                  stc.localFunctionIds stc.functionEnvironment stc.streamEnvironment with
              | .error e => .error e
              | .ok localDefs =>
                  match bodyPass ⟨stc.localStreamIds, stc.streamEnvironment, stc.functionEnvironment⟩
                      (fuel + 1) defn.bodyExprs initTraverseState [] with
                  | .error e => .error e
                  | .ok (st, yieldIds) =>
                      .ok (.mk defn.sparams defn.fparams st.constStreams st.apps localDefs
                            yieldIds,
                           st.externalReferencedStreamIds)
termination_by structural fuel _ _ _ => fuel

/-- Seeding of the root function environment from the supplied native/global
function definitions (the `forEach`/`set` loop of
`compileGlobalTreeDefinition`, using the spec-modelled checked `set`). -/
def seedGlobalFunctionEnvironment : List (FunctionID × FunctionDefinitionNode) → CompilationFunctionEnvironment → Option CompilationFunctionEnvironment
  | [], env => some env
  | (fid, d) :: rest, env =>
      match Env.setChecked env fid d with
      | none => none
      | some env1 => seedGlobalFunctionEnvironment rest env1

/-- `compileGlobalTreeDefinition`: compile the main definition against an
empty root stream environment and a function environment seeded with the
supplied global function definitions; throw when the root call's
externally-referenced-stream-ids set is non-empty, otherwise return the
compiled definition. -/
def compileGlobalTreeDefinition (fuel : Nat) (defn : TreeFunctionDefinitionNode)
    (globalFunctionEnvironment : List (FunctionID × FunctionDefinitionNode)) : Except CompErr CompiledDefinition :=
  match seedGlobalFunctionEnvironment globalFunctionEnvironment [[]] with
  | none => .error (.internalError "must be unique")
  | some compGlobalFuncEnv =>
      match compileTreeDefinition fuel defn [[]] ([] :: compGlobalFuncEnv) with
      | .error e => .error e
      | .ok (compiledDefinition, externalReferencedStreamIds) =>
          if externalReferencedStreamIds.length > 0 then .error (.internalError "")
          else .ok compiledDefinition

/-!
## Semantic predicates used by the theorems
-/

/-- The stream ids a stream-expression node defines: its own sid for a
literal, nothing for a reference, the declared output sids for an
application. -/
def ownSids : StreamExpressionNode → List StreamID
  | .undefinedLiteral sid => [sid]
  | .numberLiteral sid _ => [sid]
  | .textLiteral sid _ => [sid]
  | .booleanLiteral sid _ => [sid]
  | .streamReference _ => []
  | .application _ outs _ _ _ => outs.map ApplicationOut.sid

def SEIsApplication : StreamExpressionNode → Prop
  | .application _ _ _ _ _ => True
  | _ => False

def SEIsLiteral : StreamExpressionNode → Prop
  | .undefinedLiteral _ => True
  | .numberLiteral _ _ => True
  | .textLiteral _ _ => True
  | .booleanLiteral _ _ => True
  | _ => False

mutual

/-- All stream-expression nodes of one scope beneath a stream expression:
the node itself and, for an application, the subnodes of its stream
arguments (function arguments belong to other scopes). -/
def seSubnodes : StreamExpressionNode → List StreamExpressionNode
  | .application aid outs func sargs fargs =>
      .application aid outs func sargs fargs :: seListSubnodes sargs
  | e => [e]
termination_by structural e => e

def seListSubnodes : List StreamExpressionNode → List StreamExpressionNode
  | [] => []
  | e :: rest => seSubnodes e ++ seListSubnodes rest
termination_by structural l => l

end

/-- All stream-expression nodes of one scope in a body (not descending into
function definitions). -/
def bodyLocalStreamSubnodes : List BodyExpressionNode → List StreamExpressionNode
  | [] => []
  | .streamExpr e :: rest => seSubnodes e ++ bodyLocalStreamSubnodes rest
  | .yieldExpr _ e :: rest => seSubnodes e ++ bodyLocalStreamSubnodes rest
  | .funcDef _ :: rest => bodyLocalStreamSubnodes rest

/-- `s` is defined in this scope by an application (the only way it can
occur among the output sids of an emitted application spec). -/
def LocallyAppDefined (ctx : TraverseCtx) (s : StreamID) : Prop :=
  s ∈ ctx.localStreamIds ∧
    ∃ t, Env.get ctx.streamEnvironment s = some (some t) ∧ SEIsApplication t

/-- The application spec `spec` is the emission of the application node
`a`: same output sids, each registered in this scope to `a`. -/
def NodeSpecMatch (ctx : TraverseCtx) (a : StreamExpressionNode) (spec : AppSpec) : Prop :=
  SEIsApplication a ∧ spec.sids = ownSids a ∧
    ∀ s ∈ spec.sids, s ∈ ctx.localStreamIds ∧
      Env.get ctx.streamEnvironment s = some (some a)

/-- Dependency-respecting order relative to the scope's registrations:
every locally-application-defined stream argument of the spec at position
`i` is an output of a spec at a strictly earlier position. -/
def TopoOkList (ctx : TraverseCtx) (apps : List AppSpec) : Prop :=
  ∀ (i : Nat) (hi : i < apps.length) (s : StreamID), s ∈ apps[i].sargIds →
    LocallyAppDefined ctx s →
    ∃ j, ∃ (hj : j < apps.length), j < i ∧ s ∈ apps[j].sids

/-- The claim's topological-validity property of an emitted apps list: every
stream-argument id of the spec at position `i` that is an output of some
spec in the list is an output of a spec at a position strictly below `i`. -/
def TopoOrdered (apps : List AppSpec) : Prop :=
  ∀ (i : Nat) (hi : i < apps.length) (s : StreamID), s ∈ apps[i].sargIds →
    (∃ k, ∃ (hk : k < apps.length), s ∈ apps[k].sids) →
    ∃ j, ∃ (hj : j < apps.length), j < i ∧ s ∈ apps[j].sids

/-- Well-formedness of a traversal context with respect to a finite node
universe `S`, as established by a successful run of the Local Definition
Collector over the scope's body. -/
structure CtxWF (ctx : TraverseCtx) (S : List StreamExpressionNode) : Prop where
  regOwn : ∀ n ∈ S, ∀ s ∈ ownSids n,
      s ∈ ctx.localStreamIds ∧ Env.get ctx.streamEnvironment s = some (some n)
  regBack : ∀ s ∈ ctx.localStreamIds, ∃ v, Env.get ctx.streamEnvironment s = some v ∧
      (v = none ∨ ∃ t, v = some t ∧ t ∈ S ∧ s ∈ ownSids t)
  outsNodup : ∀ n ∈ S, (ownSids n).Nodup
  sargsClosed : ∀ aid outs func sargs fargs,
      StreamExpressionNode.application aid outs func sargs fargs ∈ S → ∀ m ∈ sargs, m ∈ S
  frames : ∃ f rest, ctx.streamEnvironment = f :: rest ∧
      ∀ s, s ∈ ctx.localStreamIds ↔ frameHas f s = true

/-- The invariant of the traversal state maintained by
`traverseStreamExpr` in a well-formed context. -/
structure GoodState (ctx : TraverseCtx) (st : TraverseState) : Prop where
  topo : TopoOkList ctx st.apps
  specsFromNodes : ∀ spec ∈ st.apps, ∃ a, a ∈ st.permanentMarked ∧ NodeSpecMatch ctx a spec
  constsFromNodes : ∀ c ∈ st.constStreams, ∃ l, l ∈ st.permanentMarked ∧ SEIsLiteral l ∧
      c.sid ∈ ownSids l ∧ Env.get ctx.streamEnvironment c.sid = some (some l)
  nodupEmitted : (st.constStreams.map ConstStreamSpec.sid ++ st.apps.flatMap AppSpec.sids).Nodup
  permPushed : ∀ n ∈ st.permanentMarked, SEIsApplication n →
      ∃ spec ∈ st.apps, NodeSpecMatch ctx n spec
  refPerm : ∀ r : StreamID, StreamExpressionNode.streamReference r ∈ st.permanentMarked →
      LocallyAppDefined ctx r → ∃ spec ∈ st.apps, r ∈ spec.sids
  ext : ∀ s ∈ st.externalReferencedStreamIds,
      s ∉ ctx.localStreamIds ∧ Env.has ctx.streamEnvironment s = true

/-- `s` is available for consumption: if it is locally application-defined,
its defining spec has already been emitted. -/
def Avail (ctx : TraverseCtx) (st : TraverseState) (s : StreamID) : Prop :=
  LocallyAppDefined ctx s → ∃ spec ∈ st.apps, s ∈ spec.sids

/-!
## Small helper lemmas
-/

theorem Avail.mono {ctx : TraverseCtx} {st st' : TraverseState} {s : StreamID}
    (h : Avail ctx st s) (hp : st.apps <+: st'.apps) : Avail ctx st' s := by
  intro hl
  obtain ⟨spec, hmem, hs⟩ := h hl
  exact ⟨spec, hp.subset hmem, hs⟩

theorem returnedId_app_mem_ownSids {aid : ApplicationID} {outs : List ApplicationOut}
    {func : FunctionExprNode} {sargs : List StreamExpressionNode}
    {fargs : List FunctionExprNode} {s : StreamID}
    (h : streamExprReturnedId (.application aid outs func sargs fargs) = some s) :
    s ∈ ownSids (.application aid outs func sargs fargs) := by
  simp only [streamExprReturnedId] at h
  cases hfind : List.find? (fun out => out.name.isNone) outs with
  | none => rw [hfind] at h; simp at h
  | some out =>
      rw [hfind] at h
      simp at h
      have hmem := List.mem_of_find?_eq_some hfind
      simp only [ownSids, List.mem_map]
      exact ⟨out, hmem, h⟩

theorem TopoOkList.append {ctx : TraverseCtx} {apps : List AppSpec} {spec : AppSpec}
    (h : TopoOkList ctx apps)
    (hnew : ∀ s ∈ spec.sargIds, LocallyAppDefined ctx s → ∃ sp ∈ apps, s ∈ sp.sids) :
    TopoOkList ctx (apps ++ [spec]) := by
  intro i hi s hs hlad
  rcases Nat.lt_or_ge i apps.length with hlt | hge
  · rw [List.getElem_append_left hlt] at hs
    obtain ⟨j, hj, hji, hmem⟩ := h i hlt s hs hlad
    refine ⟨j, by simp; omega, hji, ?_⟩
    rw [List.getElem_append_left hj]
    exact hmem
  · have hieq : i = apps.length := by simp at hi; omega
    subst hieq
    have hspec : (apps ++ [spec])[apps.length] = spec := by
      rw [List.getElem_append_right (Nat.le_refl _)]
      simp
    rw [hspec] at hs
    obtain ⟨sp, hsp, hmem⟩ := hnew s hs hlad
    obtain ⟨j, hj, hje⟩ := List.mem_iff_getElem.mp hsp
    refine ⟨j, by simp; omega, by omega, ?_⟩
    rw [List.getElem_append_left hj, hje]
    exact hmem

theorem TopoOkList.topoOrdered {ctx : TraverseCtx} {st : TraverseState}
    (g : GoodState ctx st) : TopoOrdered st.apps := by
  intro i hi s hs hex
  obtain ⟨k, hk, hmem⟩ := hex
  have hspec : st.apps[k] ∈ st.apps := List.getElem_mem hk
  obtain ⟨a, _, ha⟩ := g.specsFromNodes _ hspec
  obtain ⟨hisApp, _, hreg⟩ := ha
  obtain ⟨hl, hg⟩ := hreg s hmem
  exact g.topo i hi s hs ⟨hl, a, hg, hisApp⟩

/-- The collected success facts of one `traverseStreamExpr` call. -/
structure TraverseOk (ctx : TraverseCtx) (st st' : TraverseState)
    (node : StreamExpressionNode) : Prop where
  tempEq : st'.temporaryMarked = st.temporaryMarked
  permMono : ∀ n ∈ st.permanentMarked, n ∈ st'.permanentMarked
  nodePerm : node ∈ st'.permanentMarked
  tempSafe : ∀ n ∈ st.temporaryMarked, n ∉ st.permanentMarked → n ∉ st'.permanentMarked
  appsPrefix : st.apps <+: st'.apps
  constsPrefix : st.constStreams <+: st'.constStreams
  extMono : ∀ s ∈ st.externalReferencedStreamIds, s ∈ st'.externalReferencedStreamIds
  good : GoodState ctx st'
  avail : ∀ s, streamExprReturnedId node = some s → Avail ctx st' s

/-- The collected success facts of one run of the `sargs` loop. -/
structure SargsOk (ctx : TraverseCtx) (st st' : TraverseState)
    (ids : List StreamID) : Prop where
  tempEq : st'.temporaryMarked = st.temporaryMarked
  permMono : ∀ n ∈ st.permanentMarked, n ∈ st'.permanentMarked
  tempSafe : ∀ n ∈ st.temporaryMarked, n ∉ st.permanentMarked → n ∉ st'.permanentMarked
  appsPrefix : st.apps <+: st'.apps
  constsPrefix : st.constStreams <+: st'.constStreams
  extMono : ∀ s ∈ st.externalReferencedStreamIds, s ∈ st'.externalReferencedStreamIds
  good : GoodState ctx st'
  availIds : ∀ s ∈ ids, Avail ctx st' s

theorem goodState_init (ctx : TraverseCtx) : GoodState ctx initTraverseState := by
  constructor <;> simp [initTraverseState, TopoOkList]

/-- `GoodState` never inspects the temporary-mark set. -/
theorem GoodState.withTemp {ctx : TraverseCtx} {st : TraverseState}
    (hg : GoodState ctx st) (t : List StreamExpressionNode) :
    GoodState ctx { st with temporaryMarked := t } :=
  ⟨hg.topo, hg.specsFromNodes, hg.constsFromNodes, hg.nodupEmitted,
   hg.permPushed, hg.refPerm, hg.ext⟩

theorem sargsOk_nil {ctx : TraverseCtx} {st : TraverseState} (hg : GoodState ctx st) :
    SargsOk ctx st st [] := by
  refine ⟨rfl, fun n hn => hn, fun n hn hp => hp, List.prefix_refl _,
    List.prefix_refl _, fun s hs => hs, hg, ?_⟩
  intro s hs
  simp at hs

theorem sargsOk_cons {ctx : TraverseCtx} {st st1 st2 : TraverseState}
    {e : StreamExpressionNode} {rid : StreamID} {ids2 : List StreamID}
    (T1 : TraverseOk ctx st st1 e) (hrid : streamExprReturnedId e = some rid)
    (T2 : SargsOk ctx st1 st2 ids2) : SargsOk ctx st st2 (rid :: ids2) := by
  refine ⟨?_, ?_, ?_, ?_, ?_, ?_, T2.good, ?_⟩
  · rw [T2.tempEq, T1.tempEq]
  · intro n hn; exact T2.permMono n (T1.permMono n hn)
  · intro n hn hp
    have h1 := T1.tempSafe n hn hp
    have hn1 : n ∈ st1.temporaryMarked := by rw [T1.tempEq]; exact hn
    exact T2.tempSafe n hn1 h1
  · exact T1.appsPrefix.trans T2.appsPrefix
  · exact T1.constsPrefix.trans T2.constsPrefix
  · intro s hs; exact T2.extMono s (T1.extMono s hs)
  · intro s hs
    rcases List.mem_cons.mp hs with heq | hmem
    · subst heq
      exact (T1.avail s hrid).mono T2.appsPrefix
    · exact T2.availIds s hmem

/-- A permanently marked node short-circuits: the state is returned
unchanged, and everything the node would have emitted is already present. -/
theorem traverseOk_permShort {ctx : TraverseCtx} {S : List StreamExpressionNode}
    (wf : CtxWF ctx S) {node : StreamExpressionNode} {st : TraverseState}
    (hS : node ∈ S) (hg : GoodState ctx st) (hperm : node ∈ st.permanentMarked) :
    TraverseOk ctx st st node := by
  refine ⟨rfl, fun n hn => hn, hperm, fun n _ hp => hp, List.prefix_refl _,
    List.prefix_refl _, fun s hs => hs, hg, ?_⟩
  intro s hret hlad
  cases node with
  | undefinedLiteral sid =>
      simp only [streamExprReturnedId, Option.some.injEq] at hret
      subst hret
      obtain ⟨_, t, hgt, happ⟩ := hlad
      have := (wf.regOwn _ hS sid (by simp [ownSids])).2
      rw [this] at hgt
      cases hgt
      simp [SEIsApplication] at happ
  | numberLiteral sid v =>
      simp only [streamExprReturnedId, Option.some.injEq] at hret
      subst hret
      obtain ⟨_, t, hgt, happ⟩ := hlad
      have := (wf.regOwn _ hS sid (by simp [ownSids])).2
      rw [this] at hgt
      cases hgt
      simp [SEIsApplication] at happ
  | textLiteral sid v =>
      simp only [streamExprReturnedId, Option.some.injEq] at hret
      subst hret
      obtain ⟨_, t, hgt, happ⟩ := hlad
      have := (wf.regOwn _ hS sid (by simp [ownSids])).2
      rw [this] at hgt
      cases hgt
      simp [SEIsApplication] at happ
  | booleanLiteral sid v =>
      simp only [streamExprReturnedId, Option.some.injEq] at hret
      subst hret
      obtain ⟨_, t, hgt, happ⟩ := hlad
      have := (wf.regOwn _ hS sid (by simp [ownSids])).2
      rw [this] at hgt
      cases hgt
      simp [SEIsApplication] at happ
  | streamReference ref =>
      simp only [streamExprReturnedId, Option.some.injEq] at hret
      subst hret
      exact hg.refPerm ref hperm hlad
  | application aid outs func sargs fargs =>
      obtain ⟨spec, hspec, hmatch⟩ := hg.permPushed _ hperm trivial
      refine ⟨spec, hspec, ?_⟩
      rw [hmatch.2.1]
      exact returnedId_app_mem_ownSids hret

/-- A stream id registered to a node that is not yet permanently marked has
not been emitted as a constant spec. -/
theorem emitted_sid_not_in_consts {ctx : TraverseCtx} {st : TraverseState}
    (hg : GoodState ctx st) {node : StreamExpressionNode} {s : StreamID}
    (hreg : Env.get ctx.streamEnvironment s = some (some node))
    (hperm : node ∉ st.permanentMarked) :
    s ∉ st.constStreams.map ConstStreamSpec.sid := by
  intro hmem
  obtain ⟨c, hc, hcs⟩ := List.mem_map.mp hmem
  obtain ⟨l, hlperm, _, _, hlget⟩ := hg.constsFromNodes c hc
  rw [hcs, hreg] at hlget
  cases hlget
  exact hperm hlperm

/-- A stream id registered to a node that is not yet permanently marked has
not been emitted among any application spec's outputs. -/
theorem emitted_sid_not_in_apps {ctx : TraverseCtx} {st : TraverseState}
    (hg : GoodState ctx st) {node : StreamExpressionNode} {s : StreamID}
    (hreg : Env.get ctx.streamEnvironment s = some (some node))
    (hperm : node ∉ st.permanentMarked) :
    s ∉ st.apps.flatMap AppSpec.sids := by
  intro hmem
  obtain ⟨spec, hspec, hs⟩ := List.mem_flatMap.mp hmem
  obtain ⟨a, haperm, hmatch⟩ := hg.specsFromNodes spec hspec
  obtain ⟨_, hga⟩ := hmatch.2.2 s hs
  rw [hreg] at hga
  cases hga
  exact hperm haperm

/-- Emitting one literal node: the state transition of the four literal
cases of `traverseStreamExpr`. -/
theorem traverseOk_lit {ctx : TraverseCtx} {S : List StreamExpressionNode}
    (wf : CtxWF ctx S) {node : StreamExpressionNode} {sid : StreamID} {v : Value}
    {st : TraverseState}
    (hS : node ∈ S) (hlit : SEIsLiteral node) (hsid : ownSids node = [sid])
    (hnotapp : ¬ SEIsApplication node) (hnotref : ∀ r, node ≠ .streamReference r)
    (hret : ∀ s, streamExprReturnedId node = some s → s = sid)
    (hg : GoodState ctx st) (hperm : node ∉ st.permanentMarked)
    (htemp : node ∉ st.temporaryMarked) :
    TraverseOk ctx st
      { st with constStreams := st.constStreams ++ [⟨sid, v⟩],
                permanentMarked := List.insert node st.permanentMarked } node := by
  have hreg := wf.regOwn node hS sid (by rw [hsid]; simp)
  have hfresh1 := emitted_sid_not_in_consts hg hreg.2 hperm
  have hfresh2 := emitted_sid_not_in_apps hg hreg.2 hperm
  refine ⟨rfl, ?_, ?_, ?_, List.prefix_refl _, List.prefix_append _ _, fun s hs => hs, ?_, ?_⟩
  · intro n hn; exact List.mem_insert_iff.mpr (Or.inr hn)
  · exact List.mem_insert_iff.mpr (Or.inl rfl)
  · intro n hn hp
    intro hmem
    rcases List.mem_insert_iff.mp hmem with heq | hmem2
    · subst heq; exact htemp hn
    · exact hp hmem2
  · refine ⟨hg.topo, ?_, ?_, ?_, ?_, ?_, hg.ext⟩
    · intro spec hspec
      obtain ⟨a, hap, hm⟩ := hg.specsFromNodes spec hspec
      exact ⟨a, List.mem_insert_iff.mpr (Or.inr hap), hm⟩
    · intro c hc
      rcases List.mem_append.mp hc with hold | hnew
      · obtain ⟨l, hlp, hl1, hl2, hl3⟩ := hg.constsFromNodes c hold
        exact ⟨l, List.mem_insert_iff.mpr (Or.inr hlp), hl1, hl2, hl3⟩
      · simp at hnew
        subst hnew
        refine ⟨node, List.mem_insert_iff.mpr (Or.inl rfl), hlit, ?_, hreg.2⟩
        rw [hsid]; simp
    · have hmid : (st.constStreams ++ [(⟨sid, v⟩ : ConstStreamSpec)]).map ConstStreamSpec.sid ++
          st.apps.flatMap AppSpec.sids =
          st.constStreams.map ConstStreamSpec.sid ++
            (sid :: st.apps.flatMap AppSpec.sids) := by
        rw [List.map_append, List.append_assoc]
        rfl
      rw [hmid, List.nodup_middle, List.nodup_cons]
      constructor
      · intro hmem
        rcases List.mem_append.mp hmem with h1 | h2
        · exact hfresh1 h1
        · exact hfresh2 h2
      · exact hg.nodupEmitted
    · intro n hn happ
      rcases List.mem_insert_iff.mp hn with heq | hmem
      · subst heq; exact absurd happ hnotapp
      · obtain ⟨spec, hspec, hm⟩ := hg.permPushed n hmem happ
        exact ⟨spec, hspec, hm⟩
    · intro r hr hlad
      rcases List.mem_insert_iff.mp hr with heq | hmem
      · exact absurd heq.symm (hnotref r)
      · exact hg.refPerm r hmem hlad
  · intro s hrets hlad
    have hseq := hret s hrets
    subst hseq
    obtain ⟨_, t, hgt, happ⟩ := hlad
    rw [hreg.2] at hgt
    cases hgt
    exact absurd happ hnotapp

/-- The parameter-origin case of a local stream reference: the entry is the
null marker, no recursion happens, the node is just permanently marked. -/
theorem traverseOk_ref_param {ctx : TraverseCtx} {ref : StreamID} {st : TraverseState}
    (hget : Env.get ctx.streamEnvironment ref = some none)
    (hg : GoodState ctx st)
    (htemp : StreamExpressionNode.streamReference ref ∉ st.temporaryMarked) :
    TraverseOk ctx st
      { st with permanentMarked := List.insert (.streamReference ref) st.permanentMarked }
      (.streamReference ref) := by
  have hnolad : ¬ LocallyAppDefined ctx ref := by
    rintro ⟨_, t, hgt, _⟩
    rw [hget] at hgt
    cases hgt
  refine ⟨rfl, ?_, ?_, ?_, List.prefix_refl _, List.prefix_refl _, fun s hs => hs, ?_, ?_⟩
  · intro n hn; exact List.mem_insert_iff.mpr (Or.inr hn)
  · exact List.mem_insert_iff.mpr (Or.inl rfl)
  · intro n hn hp hmem
    rcases List.mem_insert_iff.mp hmem with heq | hmem2
    · subst heq; exact htemp hn
    · exact hp hmem2
  · refine ⟨hg.topo, ?_, ?_, hg.nodupEmitted, ?_, ?_, hg.ext⟩
    · intro spec hspec
      obtain ⟨a, hap, hm⟩ := hg.specsFromNodes spec hspec
      exact ⟨a, List.mem_insert_iff.mpr (Or.inr hap), hm⟩
    · intro c hc
      obtain ⟨l, hlp, hl1, hl2, hl3⟩ := hg.constsFromNodes c hc
      exact ⟨l, List.mem_insert_iff.mpr (Or.inr hlp), hl1, hl2, hl3⟩
    · intro n hn happ
      rcases List.mem_insert_iff.mp hn with heq | hmem
      · subst heq; simp [SEIsApplication] at happ
      · exact hg.permPushed n hmem happ
    · intro r hr hlad
      rcases List.mem_insert_iff.mp hr with heq | hmem
      · cases heq
        exact absurd hlad hnolad
      · exact hg.refPerm r hmem hlad
  · intro s hret hlad
    simp only [streamExprReturnedId, Option.some.injEq] at hret
    subst hret
    exact absurd hlad hnolad

/-- The external case of a stream reference: the id is not local but visible
in the chain; it is recorded in the external set and no recursion happens. -/
theorem traverseOk_ref_external {ctx : TraverseCtx} {ref : StreamID} {st : TraverseState}
    (hloc : ref ∉ ctx.localStreamIds)
    (hhas : Env.has ctx.streamEnvironment ref = true)
    (hg : GoodState ctx st)
    (htemp : StreamExpressionNode.streamReference ref ∉ st.temporaryMarked) :
    TraverseOk ctx st
      { st with externalReferencedStreamIds := List.insert ref st.externalReferencedStreamIds,
                permanentMarked := List.insert (.streamReference ref) st.permanentMarked }
      (.streamReference ref) := by
  have hnolad : ¬ LocallyAppDefined ctx ref := fun hlad => hloc hlad.1
  refine ⟨rfl, ?_, ?_, ?_, List.prefix_refl _, List.prefix_refl _, ?_, ?_, ?_⟩
  · intro n hn; exact List.mem_insert_iff.mpr (Or.inr hn)
  · exact List.mem_insert_iff.mpr (Or.inl rfl)
  · intro n hn hp hmem
    rcases List.mem_insert_iff.mp hmem with heq | hmem2
    · subst heq; exact htemp hn
    · exact hp hmem2
  · intro x hx; exact List.mem_insert_iff.mpr (Or.inr hx)
  · refine ⟨hg.topo, ?_, ?_, hg.nodupEmitted, ?_, ?_, ?_⟩
    · intro spec hspec
      obtain ⟨a, hap, hm⟩ := hg.specsFromNodes spec hspec
      exact ⟨a, List.mem_insert_iff.mpr (Or.inr hap), hm⟩
    · intro c hc
      obtain ⟨l, hlp, hl1, hl2, hl3⟩ := hg.constsFromNodes c hc
      exact ⟨l, List.mem_insert_iff.mpr (Or.inr hlp), hl1, hl2, hl3⟩
    · intro n hn happ
      rcases List.mem_insert_iff.mp hn with heq | hmem
      · subst heq; simp [SEIsApplication] at happ
      · exact hg.permPushed n hmem happ
    · intro r hr hlad
      rcases List.mem_insert_iff.mp hr with heq | hmem
      · cases heq
        exact absurd hlad hnolad
      · exact hg.refPerm r hmem hlad
    · intro x hx
      rcases List.mem_insert_iff.mp hx with heq | hmem
      · subst heq; exact ⟨hloc, hhas⟩
      · exact hg.ext x hmem
  · intro s hret hlad
    simp only [streamExprReturnedId, Option.some.injEq] at hret
    subst hret
    exact absurd hlad hnolad

/-- The local, non-parameter case of a stream reference: the defining node
is traversed recursively (with the reference temporary-marked around the
call), then the reference is permanently marked. -/
theorem traverseOk_ref_target {ctx : TraverseCtx} {S : List StreamExpressionNode}
    (wf : CtxWF ctx S) {ref : StreamID} {target : StreamExpressionNode}
    {st st2 : TraverseState}
    (hloc : ref ∈ ctx.localStreamIds)
    (hget : Env.get ctx.streamEnvironment ref = some (some target))
    (hg : GoodState ctx st)
    (hperm : StreamExpressionNode.streamReference ref ∉ st.permanentMarked)
    (htemp : StreamExpressionNode.streamReference ref ∉ st.temporaryMarked)
    (T : TraverseOk ctx
      { st with temporaryMarked := List.insert (.streamReference ref) st.temporaryMarked }
      st2 target) :
    TraverseOk ctx st
      { st2 with temporaryMarked := st2.temporaryMarked.erase (.streamReference ref),
                 permanentMarked := List.insert (.streamReference ref) st2.permanentMarked }
      (.streamReference ref) := by
  obtain ⟨v, hv, hvd⟩ := wf.regBack ref hloc
  rw [hget] at hv
  cases hv
  have htS : target ∈ S ∧ ref ∈ ownSids target := by
    rcases hvd with h | ⟨t, ht, htS, hto⟩
    · cases h
    · cases ht; exact ⟨htS, hto⟩
  have htemp2 : st2.temporaryMarked = .streamReference ref :: st.temporaryMarked := by
    rw [T.tempEq, List.insert_of_not_mem htemp]
  have hladspec : LocallyAppDefined ctx ref → ∃ spec ∈ st2.apps, ref ∈ spec.sids := by
    rintro ⟨_, t, hgt, happ⟩
    rw [hget] at hgt
    cases hgt
    obtain ⟨spec, hspec, hm⟩ := T.good.permPushed target T.nodePerm happ
    refine ⟨spec, hspec, ?_⟩
    rw [hm.2.1]
    exact htS.2
  refine ⟨?_, ?_, ?_, ?_, T.appsPrefix, T.constsPrefix, T.extMono, ?_, ?_⟩
  · show st2.temporaryMarked.erase (.streamReference ref) = st.temporaryMarked
    rw [htemp2, List.erase_cons_head]
  · intro n hn
    exact List.mem_insert_iff.mpr (Or.inr (T.permMono n hn))
  · exact List.mem_insert_iff.mpr (Or.inl rfl)
  · intro n hn hp hmem
    rcases List.mem_insert_iff.mp hmem with heq | hmem2
    · subst heq; exact htemp hn
    · exact T.tempSafe n (List.mem_insert_iff.mpr (Or.inr hn)) hp hmem2
  · refine ⟨T.good.topo, ?_, ?_, T.good.nodupEmitted, ?_, ?_, T.good.ext⟩
    · intro spec hspec
      obtain ⟨a, hap, hm⟩ := T.good.specsFromNodes spec hspec
      exact ⟨a, List.mem_insert_iff.mpr (Or.inr hap), hm⟩
    · intro c hc
      obtain ⟨l, hlp, hl1, hl2, hl3⟩ := T.good.constsFromNodes c hc
      exact ⟨l, List.mem_insert_iff.mpr (Or.inr hlp), hl1, hl2, hl3⟩
    · intro n hn happ
      rcases List.mem_insert_iff.mp hn with heq | hmem
      · subst heq; simp [SEIsApplication] at happ
      · exact T.good.permPushed n hmem happ
    · intro r hr hlad
      rcases List.mem_insert_iff.mp hr with heq | hmem
      · cases heq
        exact hladspec hlad
      · exact T.good.refPerm r hmem hlad
  · intro s hret hlad
    simp only [streamExprReturnedId, Option.some.injEq] at hret
    subst hret
    exact hladspec hlad

/-- Emitting one application node: the children (stream arguments) have been
traversed with the node temporary-marked, then the spec is appended after
them and the node permanently marked. -/
theorem traverseOk_app {ctx : TraverseCtx} {S : List StreamExpressionNode}
    (wf : CtxWF ctx S) {aid : ApplicationID} {outs : List ApplicationOut}
    {func : FunctionExprNode} {sargs : List StreamExpressionNode}
    {fargs : List FunctionExprNode} {st st2 : TraverseState}
    {sargIds : List StreamID} {fargIds : List FunctionID}
    (hS : StreamExpressionNode.application aid outs func sargs fargs ∈ S)
    (hperm : StreamExpressionNode.application aid outs func sargs fargs ∉ st.permanentMarked)
    (htemp : StreamExpressionNode.application aid outs func sargs fargs ∉ st.temporaryMarked)
    (L : SargsOk ctx
      { st with temporaryMarked :=
          List.insert (.application aid outs func sargs fargs) st.temporaryMarked }
      st2 sargIds) :
    TraverseOk ctx st
      { st2 with
        temporaryMarked := st2.temporaryMarked.erase (.application aid outs func sargs fargs),
        apps := st2.apps ++
          [⟨outs.map ApplicationOut.sid, aid, functionExprId func, sargIds, fargIds⟩],
        permanentMarked :=
          List.insert (.application aid outs func sargs fargs) st2.permanentMarked }
      (.application aid outs func sargs fargs) := by
  have hnode2 : StreamExpressionNode.application aid outs func sargs fargs ∉ st2.permanentMarked :=
    L.tempSafe _ (List.mem_insert_iff.mpr (Or.inl rfl)) hperm
  have hreg : ∀ s ∈ outs.map ApplicationOut.sid,
      s ∈ ctx.localStreamIds ∧
        Env.get ctx.streamEnvironment s =
          some (some (.application aid outs func sargs fargs)) :=
    fun s hs => wf.regOwn _ hS s hs
  have htemp2 : st2.temporaryMarked =
      .application aid outs func sargs fargs :: st.temporaryMarked := by
    rw [L.tempEq, List.insert_of_not_mem htemp]
  have hnodupNew : (outs.map ApplicationOut.sid).Nodup := wf.outsNodup _ hS
  refine ⟨?_, ?_, ?_, ?_, ?_, L.constsPrefix, L.extMono, ?_, ?_⟩
  · show st2.temporaryMarked.erase _ = st.temporaryMarked
    rw [htemp2, List.erase_cons_head]
  · intro n hn
    exact List.mem_insert_iff.mpr (Or.inr (L.permMono n hn))
  · exact List.mem_insert_iff.mpr (Or.inl rfl)
  · intro n hn hp hmem
    rcases List.mem_insert_iff.mp hmem with heq | hmem2
    · subst heq; exact htemp hn
    · exact L.tempSafe n (List.mem_insert_iff.mpr (Or.inr hn)) hp hmem2
  · exact L.appsPrefix.trans (List.prefix_append _ _)
  · refine ⟨?_, ?_, ?_, ?_, ?_, ?_, L.good.ext⟩
    · exact TopoOkList.append L.good.topo (fun s hs hlad => L.availIds s hs hlad)
    · intro spec hspec
      rcases List.mem_append.mp hspec with hold | hnew
      · obtain ⟨a, hap, hm⟩ := L.good.specsFromNodes spec hold
        exact ⟨a, List.mem_insert_iff.mpr (Or.inr hap), hm⟩
      · simp only [List.mem_singleton] at hnew
        subst hnew
        exact ⟨.application aid outs func sargs fargs,
          List.mem_insert_iff.mpr (Or.inl rfl),
          trivial, rfl, fun s hs => hreg s hs⟩
    · intro c hc
      obtain ⟨l, hlp, hl1, hl2, hl3⟩ := L.good.constsFromNodes c hc
      exact ⟨l, List.mem_insert_iff.mpr (Or.inr hlp), hl1, hl2, hl3⟩
    · show (st2.constStreams.map ConstStreamSpec.sid ++
        (st2.apps ++ [_]).flatMap AppSpec.sids).Nodup
      rw [List.flatMap_append, List.flatMap_cons, List.flatMap_nil, List.append_nil,
        ← List.append_assoc]
      refine List.Nodup.append L.good.nodupEmitted hnodupNew ?_
      intro a ha hb
      rcases List.mem_append.mp ha with h1 | h2
      · exact emitted_sid_not_in_consts L.good (hreg a hb).2 hnode2 h1
      · exact emitted_sid_not_in_apps L.good (hreg a hb).2 hnode2 h2
    · intro n hn happ
      rcases List.mem_insert_iff.mp hn with heq | hmem
      · subst heq
        exact ⟨_, List.mem_append_right _ (List.mem_singleton.mpr rfl),
          trivial, rfl, fun s hs => hreg s hs⟩
      · obtain ⟨sp, hsp, hm⟩ := L.good.permPushed n hmem happ
        exact ⟨sp, List.mem_append_left _ hsp, hm⟩
    · intro r hr hlad
      rcases List.mem_insert_iff.mp hr with heq | hmem
      · exact absurd heq (by simp)
      · obtain ⟨sp, hsp, hm⟩ := L.good.refPerm r hmem hlad
        exact ⟨sp, List.mem_append_left _ hsp, hm⟩
  · intro s hret _
    have hmem := returnedId_app_mem_ownSids hret
    exact ⟨_, List.mem_append_right _ (List.mem_singleton.mpr rfl), hmem⟩

/-- The central invariant theorem of the Topological Graph Compiler: in a
context established by a successful collection, every successful
`traverseStreamExpr` call preserves `GoodState`, leaves the temporary marks
as it found them, only appends to the emission lists, permanently marks its
node, and leaves the returned id of its node available. -/
theorem traverse_ok {ctx : TraverseCtx} {S : List StreamExpressionNode} (wf : CtxWF ctx S) :
    ∀ fuel : Nat,
      (∀ node st st', node ∈ S → GoodState ctx st →
          traverseStreamExpr ctx fuel node st = .ok st' → TraverseOk ctx st st' node) ∧
      (∀ sargs st ids st', (∀ e ∈ sargs, e ∈ S) → GoodState ctx st →
          traverseSargsWith (traverseStreamExpr ctx fuel) sargs st = .ok (ids, st') →
          SargsOk ctx st st' ids) := by
  intro fuel
  induction fuel with
  | zero =>
      constructor
      · intro node st st' _ _ hrun
        simp [traverseStreamExpr] at hrun
      · intro sargs
        cases sargs with
        | nil =>
            intro st ids st' _ hg hrun
            simp only [traverseSargsWith] at hrun
            cases hrun
            exact sargsOk_nil hg
        | cons e rest =>
            intro st ids st' _ _ hrun
            simp [traverseSargsWith, traverseStreamExpr] at hrun
  | succ fuel ih =>
      obtain ⟨ihT, ihL⟩ := ih
      have htrav : ∀ node st st', node ∈ S → GoodState ctx st →
          traverseStreamExpr ctx (fuel + 1) node st = .ok st' → TraverseOk ctx st st' node := by
        intro node st st' hS hg hrun
        cases node with
        | undefinedLiteral sid =>
            simp only [traverseStreamExpr] at hrun
            by_cases hperm : (.undefinedLiteral sid : StreamExpressionNode) ∈ st.permanentMarked
            · rw [if_pos hperm] at hrun
              cases hrun
              exact traverseOk_permShort wf hS hg hperm
            · rw [if_neg hperm] at hrun
              by_cases htemp : (.undefinedLiteral sid : StreamExpressionNode) ∈ st.temporaryMarked
              · rw [if_pos htemp] at hrun; simp at hrun
              · rw [if_neg htemp] at hrun
                cases hrun
                refine traverseOk_lit wf hS trivial rfl ?_ ?_ ?_ hg hperm htemp
                · simp [SEIsApplication]
                · intro r h; cases h
                · intro s h
                  simp only [streamExprReturnedId, Option.some.injEq] at h
                  exact h.symm
        | numberLiteral sid v =>
            simp only [traverseStreamExpr] at hrun
            by_cases hperm : (.numberLiteral sid v : StreamExpressionNode) ∈ st.permanentMarked
            · rw [if_pos hperm] at hrun
              cases hrun
              exact traverseOk_permShort wf hS hg hperm
            · rw [if_neg hperm] at hrun
              by_cases htemp : (.numberLiteral sid v : StreamExpressionNode) ∈ st.temporaryMarked
              · rw [if_pos htemp] at hrun; simp at hrun
              · rw [if_neg htemp] at hrun
                cases hrun
                refine traverseOk_lit wf hS trivial rfl ?_ ?_ ?_ hg hperm htemp
                · simp [SEIsApplication]
                · intro r h; cases h
                · intro s h
                  simp only [streamExprReturnedId, Option.some.injEq] at h
                  exact h.symm
        | textLiteral sid v =>
            simp only [traverseStreamExpr] at hrun
            by_cases hperm : (.textLiteral sid v : StreamExpressionNode) ∈ st.permanentMarked
            · rw [if_pos hperm] at hrun
              cases hrun
              exact traverseOk_permShort wf hS hg hperm
            · rw [if_neg hperm] at hrun
              by_cases htemp : (.textLiteral sid v : StreamExpressionNode) ∈ st.temporaryMarked
              · rw [if_pos htemp] at hrun; simp at hrun
              · rw [if_neg htemp] at hrun
                cases hrun
                refine traverseOk_lit wf hS trivial rfl ?_ ?_ ?_ hg hperm htemp
                · simp [SEIsApplication]
                · intro r h; cases h
                · intro s h
                  simp only [streamExprReturnedId, Option.some.injEq] at h
                  exact h.symm
        | booleanLiteral sid v =>
            simp only [traverseStreamExpr] at hrun
            by_cases hperm : (.booleanLiteral sid v : StreamExpressionNode) ∈ st.permanentMarked
            · rw [if_pos hperm] at hrun
              cases hrun
              exact traverseOk_permShort wf hS hg hperm
            · rw [if_neg hperm] at hrun
              by_cases htemp : (.booleanLiteral sid v : StreamExpressionNode) ∈ st.temporaryMarked
              · rw [if_pos htemp] at hrun; simp at hrun
              · rw [if_neg htemp] at hrun
                cases hrun
                refine traverseOk_lit wf hS trivial rfl ?_ ?_ ?_ hg hperm htemp
                · simp [SEIsApplication]
                · intro r h; cases h
                · intro s h
                  simp only [streamExprReturnedId, Option.some.injEq] at h
                  exact h.symm
        | streamReference ref =>
            simp only [traverseStreamExpr] at hrun
            by_cases hperm : (.streamReference ref : StreamExpressionNode) ∈ st.permanentMarked
            · rw [if_pos hperm] at hrun
              cases hrun
              exact traverseOk_permShort wf hS hg hperm
            · rw [if_neg hperm] at hrun
              by_cases htemp : (.streamReference ref : StreamExpressionNode) ∈ st.temporaryMarked
              · rw [if_pos htemp] at hrun; simp at hrun
              · rw [if_neg htemp] at hrun
                by_cases hloc : ref ∈ ctx.localStreamIds
                · rw [if_pos hloc] at hrun
                  split at hrun
                  · rename_i hget
                    cases hrun
                    exact traverseOk_ref_param hget hg htemp
                  · cases hrun
                  · rename_i target hget
                    split at hrun
                    · cases hrun
                    · rename_i st2 hsub
                      cases hrun
                      obtain ⟨v, hv, hvd⟩ := wf.regBack ref hloc
                      rw [hget] at hv
                      cases hv
                      have htS : target ∈ S := by
                        rcases hvd with h | ⟨t, ht, htmem, _⟩
                        · cases h
                        · cases ht; exact htmem
                      exact traverseOk_ref_target wf hloc hget hg hperm htemp
                        (ihT target _ st2 htS (hg.withTemp _) hsub)
                · rw [if_neg hloc] at hrun
                  by_cases hhas : Env.has ctx.streamEnvironment ref = true
                  · rw [if_pos hhas] at hrun
                    cases hrun
                    exact traverseOk_ref_external hloc hhas hg htemp
                  · rw [if_neg hhas] at hrun
                    simp at hrun
        | application aid outs func sargs fargs =>
            simp only [traverseStreamExpr] at hrun
            by_cases hperm :
                (.application aid outs func sargs fargs : StreamExpressionNode) ∈ st.permanentMarked
            · rw [if_pos hperm] at hrun
              cases hrun
              exact traverseOk_permShort wf hS hg hperm
            · rw [if_neg hperm] at hrun
              by_cases htemp :
                  (.application aid outs func sargs fargs : StreamExpressionNode) ∈ st.temporaryMarked
              · rw [if_pos htemp] at hrun; simp at hrun
              · rw [if_neg htemp] at hrun
                split at hrun
                · cases hrun
                · split at hrun
                  · cases hrun
                  · rename_i sargIds st2 hsa
                    split at hrun
                    · cases hrun
                    · rename_i fargIds hfa
                      cases hrun
                      have hclosed : ∀ e ∈ sargs, e ∈ S :=
                        wf.sargsClosed aid outs func sargs fargs hS
                      exact traverseOk_app wf hS hperm htemp
                        (ihL sargs _ sargIds st2 hclosed (hg.withTemp _) hsa)
      refine ⟨htrav, ?_⟩
      intro sargs
      induction sargs with
      | nil =>
          intro st ids st' _ hg hrun
          simp only [traverseSargsWith] at hrun
          cases hrun
          exact sargsOk_nil hg
      | cons e rest ihl =>
          intro st ids st' hall hg hrun
          simp only [traverseSargsWith] at hrun
          split at hrun
          · cases hrun
          · rename_i st1 h1
            split at hrun
            · cases hrun
            · rename_i rid hrid
              split at hrun
              · cases hrun
              · rename_i ids2 st2 h2
                cases hrun
                have T1 := htrav e st st1 (hall e (by simp)) hg h1
                have T2 := ihl st1 ids2 _ (fun x hx => hall x (by simp [hx]))
                  T1.good h2
                exact sargsOk_cons T1 hrid T2

/-!
## Structural facts about the per-scope node universe
-/

theorem seSubnodes_self : ∀ e : StreamExpressionNode, e ∈ seSubnodes e := by
  intro e
  cases e <;> simp [seSubnodes]

theorem seListSubnodes_sub : ∀ (l : List StreamExpressionNode) (e : StreamExpressionNode),
    e ∈ l → ∀ n ∈ seSubnodes e, n ∈ seListSubnodes l := by
  intro l
  induction l with
  | nil => intro e he; simp at he
  | cons x xs ihx =>
      intro e he n hn
      simp only [seListSubnodes, List.mem_append]
      rcases List.mem_cons.mp he with heq | hmem
      · subst heq; exact Or.inl hn
      · exact Or.inr (ihx e hmem n hn)

mutual

theorem seSubnodes_closed : ∀ (e : StreamExpressionNode) (aid : ApplicationID)
    (outs : List ApplicationOut) (func : FunctionExprNode)
    (sargs : List StreamExpressionNode) (fargs : List FunctionExprNode),
    StreamExpressionNode.application aid outs func sargs fargs ∈ seSubnodes e →
    ∀ m ∈ sargs, m ∈ seSubnodes e
  | .undefinedLiteral _, _, _, _, _, _, h, _, _ => by simp [seSubnodes] at h
  | .numberLiteral _ _, _, _, _, _, _, h, _, _ => by simp [seSubnodes] at h
  | .textLiteral _ _, _, _, _, _, _, h, _, _ => by simp [seSubnodes] at h
  | .booleanLiteral _ _, _, _, _, _, _, h, _, _ => by simp [seSubnodes] at h
  | .streamReference _, _, _, _, _, _, h, _, _ => by simp [seSubnodes] at h
  | .application aid0 outs0 func0 sargs0 fargs0, aid, outs, func, sargs, fargs, h, m, hm => by
      simp only [seSubnodes, List.mem_cons] at h
      simp only [seSubnodes, List.mem_cons]
      rcases h with heq | hsub
      · cases heq
        exact Or.inr (seListSubnodes_sub sargs0 m hm m (seSubnodes_self m))
      · exact Or.inr (seListSubnodes_closed sargs0 aid outs func sargs fargs hsub m hm)
termination_by structural e _ _ _ _ _ _ _ _ => e

theorem seListSubnodes_closed : ∀ (l : List StreamExpressionNode) (aid : ApplicationID)
    (outs : List ApplicationOut) (func : FunctionExprNode)
    (sargs : List StreamExpressionNode) (fargs : List FunctionExprNode),
    StreamExpressionNode.application aid outs func sargs fargs ∈ seListSubnodes l →
    ∀ m ∈ sargs, m ∈ seListSubnodes l
  | [], _, _, _, _, _, h, _, _ => by simp [seListSubnodes] at h
  | x :: xs, aid, outs, func, sargs, fargs, h, m, hm => by
      simp only [seListSubnodes, List.mem_append] at h
      simp only [seListSubnodes, List.mem_append]
      rcases h with hx | hxs
      · exact Or.inl (seSubnodes_closed x aid outs func sargs fargs hx m hm)
      · exact Or.inr (seListSubnodes_closed xs aid outs func sargs fargs hxs m hm)
termination_by structural l _ _ _ _ _ _ _ _ => l

end

theorem bodySubnodes_sub : ∀ (bes : List BodyExpressionNode) (e : StreamExpressionNode),
    (BodyExpressionNode.streamExpr e ∈ bes ∨ ∃ idx, BodyExpressionNode.yieldExpr idx e ∈ bes) →
    ∀ n ∈ seSubnodes e, n ∈ bodyLocalStreamSubnodes bes := by
  intro bes
  induction bes with
  | nil =>
      intro e he
      rcases he with h | ⟨idx, h⟩ <;> simp at h
  | cons be rest ih =>
      intro e he n hn
      rcases he with h | ⟨idx, h⟩
      · rcases List.mem_cons.mp h with heq | hmem
        · subst heq
          simp only [bodyLocalStreamSubnodes, List.mem_append]
          exact Or.inl hn
        · cases be <;> simp only [bodyLocalStreamSubnodes, List.mem_append] <;>
            first
              | exact Or.inr (ih e (Or.inl hmem) n hn)
              | exact ih e (Or.inl hmem) n hn
      · rcases List.mem_cons.mp h with heq | hmem
        · subst heq
          simp only [bodyLocalStreamSubnodes, List.mem_append]
          exact Or.inl hn
        · cases be <;> simp only [bodyLocalStreamSubnodes, List.mem_append] <;>
            first
              | exact Or.inr (ih e (Or.inr ⟨idx, hmem⟩) n hn)
              | exact ih e (Or.inr ⟨idx, hmem⟩) n hn

theorem bodySubnodes_closed : ∀ (bes : List BodyExpressionNode) (aid : ApplicationID)
    (outs : List ApplicationOut) (func : FunctionExprNode)
    (sargs : List StreamExpressionNode) (fargs : List FunctionExprNode),
    StreamExpressionNode.application aid outs func sargs fargs ∈ bodyLocalStreamSubnodes bes →
    ∀ m ∈ sargs, m ∈ bodyLocalStreamSubnodes bes := by
  intro bes
  induction bes with
  | nil => intro aid outs func sargs fargs h; simp [bodyLocalStreamSubnodes] at h
  | cons be rest ih =>
      intro aid outs func sargs fargs h m hm
      cases be with
      | streamExpr e =>
          simp only [bodyLocalStreamSubnodes, List.mem_append] at h
          simp only [bodyLocalStreamSubnodes, List.mem_append]
          rcases h with hx | hxs
          · exact Or.inl (seSubnodes_closed e aid outs func sargs fargs hx m hm)
          · exact Or.inr (ih aid outs func sargs fargs hxs m hm)
      | yieldExpr idx e =>
          simp only [bodyLocalStreamSubnodes, List.mem_append] at h
          simp only [bodyLocalStreamSubnodes, List.mem_append]
          rcases h with hx | hxs
          · exact Or.inl (seSubnodes_closed e aid outs func sargs fargs hx m hm)
          · exact Or.inr (ih aid outs func sargs fargs hxs m hm)
      | funcDef d =>
          simp only [bodyLocalStreamSubnodes] at h
          simp only [bodyLocalStreamSubnodes]
          exact ih aid outs func sargs fargs h m hm

/-!
## The universe of local function definitions of a scope
-/

mutual

def seFnDefs : StreamExpressionNode → List FunctionDefinitionNode
  | .application _ _ func _sargs fargs =>
      feFnDefs func ++ feListFnDefs fargs ++ seListFnDefs _sargs
  | _ => []
termination_by structural e => e

def seListFnDefs : List StreamExpressionNode → List FunctionDefinitionNode
  | [] => []
  | e :: rest => seFnDefs e ++ seListFnDefs rest
termination_by structural l => l

def feFnDefs : FunctionExprNode → List FunctionDefinitionNode
  | .fref _ => []
  | .fdef d => [d]

def feListFnDefs : List FunctionExprNode → List FunctionDefinitionNode
  | [] => []
  | fe :: rest => feFnDefs fe ++ feListFnDefs rest
termination_by structural l => l

end

def beFnDefs : BodyExpressionNode → List FunctionDefinitionNode
  | .streamExpr e => seFnDefs e
  | .yieldExpr _ e => seFnDefs e
  | .funcDef d => [d]

/-- The function definitions directly local to a body (the ones the
collector registers). -/
def bodyFnDefs : List BodyExpressionNode → List FunctionDefinitionNode
  | [] => []
  | be :: rest => beFnDefs be ++ bodyFnDefs rest

/-!
## Collector invariants
-/

/-- The stream-frame invariant maintained by the collector: the local-id set
mirrors the local frame, and every entry is a parameter null marker or maps
one of the defining node's own sids to that node, the node drawn from the
scope universe `S`. -/
def FrameInv (S : List StreamExpressionNode) (f : Frame (Option StreamExpressionNode))
    (lsids : List StreamID) : Prop :=
  (∀ s, s ∈ lsids ↔ frameHas f s = true) ∧
  (∀ p ∈ f, p.2 = none ∨ ∃ t, p.2 = some t ∧ t ∈ S ∧ p.1 ∈ ownSids t)

/-- The function-frame invariant: the local function-id set mirrors the
local function frame, every entry maps a definition's own fid to that
definition, the definition drawn from the body's local definitions `D`. -/
def FFrameInv (D : List FunctionDefinitionNode) (g : Frame FunctionDefinitionNode)
    (lfids : List FunctionID) : Prop :=
  (∀ fid, fid ∈ lfids ↔ frameHas g fid = true) ∧
  (∀ p ∈ g, p.2.fid = p.1 ∧ p.2 ∈ D)

/-- All of a node's own sids are registered to it in the local frame. -/
def RegisteredIn (f : Frame (Option StreamExpressionNode)) (lsids : List StreamID)
    (n : StreamExpressionNode) : Prop :=
  (∀ s ∈ ownSids n, List.lookup s f = some (some n) ∧ s ∈ lsids) ∧ (ownSids n).Nodup

theorem frameHas_iff_lookup {V : Type} (f : Frame V) (s : String) :
    frameHas f s = true ↔ ∃ v, List.lookup s f = some v := by
  induction f with
  | nil => simp [frameHas, List.lookup]
  | cons p rest ih =>
      obtain ⟨k, v⟩ := p
      by_cases hk : s = k
      · subst hk
        simp [frameHas, List.lookup]
      · have h1 : (k == s) = false := by simp [hk]; intro hc; exact hk hc.symm
        have h2 : (s == k) = false := by simp [hk]
        simp only [frameHas, List.any_cons, h1, List.lookup, h2, Bool.false_or]
        exact ih

theorem lookup_mem {V : Type} {f : Frame V} {s : String} {v : V}
    (h : List.lookup s f = some v) : (s, v) ∈ f := by
  induction f with
  | nil => simp [List.lookup] at h
  | cons p rest ih =>
      obtain ⟨k, w⟩ := p
      by_cases hk : s = k
      · subst hk
        simp [List.lookup] at h
        simp [h]
      · have h2 : (s == k) = false := by simp [hk]
        simp only [List.lookup, h2] at h
        exact List.mem_cons.mpr (Or.inr (ih h))

theorem lookup_cons_fresh {V : Type} {f : Frame V} {s k : String} {v w : V}
    (hne : s ≠ k) (h : List.lookup s f = some v) :
    List.lookup s ((k, w) :: f) = some v := by
  have h2 : (s == k) = false := by simp [hne]
  simp only [List.lookup, h2]
  exact h

theorem lookup_cons_self {V : Type} (f : Frame V) (k : String) (v : V) :
    List.lookup k ((k, v) :: f) = some v := by
  simp [List.lookup]

theorem Env.get_head {V : Type} {f : Frame V} {rest : Env V} {s : String} {v : V}
    (h : List.lookup s f = some v) : Env.get (f :: rest) s = some v := by
  simp only [Env.get, h]

theorem Env.has_cons {V : Type} (f : Frame V) (rest : Env V) (s : String) :
    Env.has (f :: rest) s = (frameHas f s || Env.has rest s) := by
  simp [Env.has]

theorem frameHas_of_lookup {V : Type} {f : Frame V} {s : String} {v : V}
    (h : List.lookup s f = some v) : frameHas f s = true :=
  (frameHas_iff_lookup f s).mpr ⟨v, h⟩

theorem registerStreamDef_ok {σ σ' : CollectState} {sid : StreamID}
    {v : Option StreamExpressionNode}
    (h : registerStreamDef σ sid v = .ok σ') :
    Env.has σ.streamEnvironment sid = false ∧
    σ'.streamEnvironment = Env.setLocal σ.streamEnvironment sid v ∧
    σ'.localStreamIds = σ.localStreamIds ++ [sid] ∧
    σ'.functionEnvironment = σ.functionEnvironment ∧
    σ'.localFunctionIds = σ.localFunctionIds := by
  simp only [registerStreamDef] at h
  by_cases hh : Env.has σ.streamEnvironment sid = true
  · rw [if_pos hh] at h; cases h
  · rw [if_neg hh] at h
    cases h
    exact ⟨by simpa using hh, rfl, rfl, rfl, rfl⟩

theorem registerFunctionDef_ok {σ σ' : CollectState} {d : FunctionDefinitionNode}
    (h : registerFunctionDef σ d = .ok σ') :
    Env.has σ.functionEnvironment d.fid = false ∧
    σ'.functionEnvironment = Env.setLocal σ.functionEnvironment d.fid d ∧
    σ'.localFunctionIds = σ.localFunctionIds ++ [d.fid] ∧
    σ'.streamEnvironment = σ.streamEnvironment ∧
    σ'.localStreamIds = σ.localStreamIds := by
  simp only [registerFunctionDef] at h
  by_cases hh : Env.has σ.functionEnvironment d.fid = true
  · rw [if_pos hh] at h; cases h
  · rw [if_neg hh] at h
    cases h
    exact ⟨by simpa using hh, rfl, rfl, rfl, rfl⟩

theorem frameHas_cons {V : Type} (k : String) (v : V) (f : Frame V) (s : String) :
    frameHas ((k, v) :: f) s = ((k == s) || frameHas f s) := by
  simp [frameHas]

theorem FrameInv_extend {S : List StreamExpressionNode}
    {f : Frame (Option StreamExpressionNode)} {lsids : List StreamID}
    {sid : StreamID} {v : Option StreamExpressionNode}
    (hinv : FrameInv S f lsids) (hfresh : frameHas f sid = false)
    (hval : v = none ∨ ∃ t, v = some t ∧ t ∈ S ∧ sid ∈ ownSids t) :
    FrameInv S ((sid, v) :: f) (lsids ++ [sid]) := by
  constructor
  · intro s
    rw [List.mem_append, frameHas_cons]
    by_cases hs : s = sid
    · subst hs
      simp
    · have h1 : (sid == s) = false := by
        simp only [beq_eq_false_iff_ne, ne_eq]
        exact fun hc => hs hc.symm
      simp only [h1, Bool.false_or, List.mem_singleton, hs, or_false]
      exact hinv.1 s
  · intro p hp
    rcases List.mem_cons.mp hp with heq | hmem
    · subst heq; exact hval
    · exact hinv.2 p hmem

theorem FFrameInv_extend {D : List FunctionDefinitionNode}
    {g : Frame FunctionDefinitionNode} {lfids : List FunctionID}
    {d : FunctionDefinitionNode}
    (hinv : FFrameInv D g lfids) (hD : d ∈ D) :
    FFrameInv D ((d.fid, d) :: g) (lfids ++ [d.fid]) := by
  constructor
  · intro s
    rw [List.mem_append, frameHas_cons]
    by_cases hs : s = d.fid
    · subst hs
      simp
    · have h1 : (d.fid == s) = false := by
        simp only [beq_eq_false_iff_ne, ne_eq]
        exact fun hc => hs hc.symm
      simp only [h1, Bool.false_or, List.mem_singleton, hs, or_false]
      exact hinv.1 s
  · intro p hp
    rcases List.mem_cons.mp hp with heq | hmem
    · subst heq; exact ⟨rfl, hD⟩
    · exact hinv.2 p hmem

/-- The postcondition of one collector step relative to fixed outer
environments: the frame shape and invariants are preserved, existing
registrations persist, the id sets only grow, and every node of `N` ends up
registered. -/
def CollectPostR (outerSE : CompilationStreamEnvironment)
    (outerFE : CompilationFunctionEnvironment) (S : List StreamExpressionNode)
    (D : List FunctionDefinitionNode) (N : List StreamExpressionNode)
    (σ σ' : CollectState) : Prop :=
  ∀ f g, σ.streamEnvironment = f :: outerSE → σ.functionEnvironment = g :: outerFE →
    FrameInv S f σ.localStreamIds → FFrameInv D g σ.localFunctionIds →
    ∃ f' g', σ'.streamEnvironment = f' :: outerSE ∧ σ'.functionEnvironment = g' :: outerFE ∧
      FrameInv S f' σ'.localStreamIds ∧ FFrameInv D g' σ'.localFunctionIds ∧
      (∀ s v, List.lookup s f = some v → List.lookup s f' = some v) ∧
      (∀ s d, List.lookup s g = some d → List.lookup s g' = some d) ∧
      (∀ s, s ∈ σ.localStreamIds → s ∈ σ'.localStreamIds) ∧
      (∀ fid, fid ∈ σ.localFunctionIds → fid ∈ σ'.localFunctionIds) ∧
      (∀ n ∈ N, RegisteredIn f' σ'.localStreamIds n)

theorem CollectPostR_rfl {outerSE : CompilationStreamEnvironment}
    {outerFE : CompilationFunctionEnvironment} {S : List StreamExpressionNode}
    {D : List FunctionDefinitionNode} {σ : CollectState} :
    CollectPostR outerSE outerFE S D [] σ σ := by
  intro f g hf hg hfi hgi
  refine ⟨f, g, hf, hg, hfi, hgi, fun s v h => h, fun s d h => h,
    fun s h => h, fun fid h => h, ?_⟩
  intro n hn
  simp at hn

theorem CollectPostR_trans {outerSE : CompilationStreamEnvironment}
    {outerFE : CompilationFunctionEnvironment} {S : List StreamExpressionNode}
    {D : List FunctionDefinitionNode} {N1 N2 : List StreamExpressionNode}
    {σ σ1 σ2 : CollectState}
    (h1 : CollectPostR outerSE outerFE S D N1 σ σ1)
    (h2 : CollectPostR outerSE outerFE S D N2 σ1 σ2) :
    CollectPostR outerSE outerFE S D (N1 ++ N2) σ σ2 := by
  intro f g hf hg hfi hgi
  obtain ⟨f1, g1, hf1, hg1, hfi1, hgi1, hp1, hq1, hl1, hm1, hr1⟩ := h1 f g hf hg hfi hgi
  obtain ⟨f2, g2, hf2, hg2, hfi2, hgi2, hp2, hq2, hl2, hm2, hr2⟩ := h2 f1 g1 hf1 hg1 hfi1 hgi1
  refine ⟨f2, g2, hf2, hg2, hfi2, hgi2,
    fun s v h => hp2 s v (hp1 s v h), fun s d h => hq2 s d (hq1 s d h),
    fun s h => hl2 s (hl1 s h), fun fid h => hm2 fid (hm1 fid h), ?_⟩
  intro n hn
  rcases List.mem_append.mp hn with hn1 | hn2
  · obtain ⟨hreg, hnd⟩ := hr1 n hn1
    refine ⟨?_, hnd⟩
    intro s hs
    obtain ⟨hl, hm⟩ := hreg s hs
    exact ⟨hp2 s _ hl, hl2 s hm⟩
  · exact hr2 n hn2

theorem registerStreamDef_post {outerSE : CompilationStreamEnvironment}
    {outerFE : CompilationFunctionEnvironment} {S : List StreamExpressionNode}
    {D : List FunctionDefinitionNode} {σ σ' : CollectState} {sid : StreamID}
    {v : Option StreamExpressionNode}
    (h : registerStreamDef σ sid v = .ok σ')
    (hval : v = none ∨ ∃ t, v = some t ∧ t ∈ S ∧ sid ∈ ownSids t) :
    CollectPostR outerSE outerFE S D [] σ σ' := by
  obtain ⟨hfresh, hse, hls, hfe, hlf⟩ := registerStreamDef_ok h
  intro f g hf hg hfi hgi
  rw [hf] at hfresh hse
  rw [Env.has_cons] at hfresh
  have hfr : frameHas f sid = false := by
    cases hc : frameHas f sid
    · rfl
    · rw [hc] at hfresh; simp at hfresh
  refine ⟨(sid, v) :: f, g, ?_, ?_, ?_, ?_, ?_, fun s d hx => hx, ?_, ?_, ?_⟩
  · rw [hse]; simp [Env.setLocal]
  · rw [hfe]; exact hg
  · rw [hls]; exact FrameInv_extend hfi hfr hval
  · rw [hlf]; exact hgi
  · intro s w hl
    have hne : s ≠ sid := by
      intro he; subst he
      rw [frameHas_of_lookup hl] at hfr
      cases hfr
    exact lookup_cons_fresh hne hl
  · intro s hs; rw [hls]; exact List.mem_append_left _ hs
  · intro fid hfid; rw [hlf]; exact hfid
  · intro n hn; simp at hn

theorem registerFunctionDef_post {outerSE : CompilationStreamEnvironment}
    {outerFE : CompilationFunctionEnvironment} {S : List StreamExpressionNode}
    {D : List FunctionDefinitionNode} {σ σ' : CollectState} {d : FunctionDefinitionNode}
    (h : registerFunctionDef σ d = .ok σ') (hD : d ∈ D) :
    CollectPostR outerSE outerFE S D [] σ σ' := by
  obtain ⟨hfresh, hfe, hlf, hse, hls⟩ := registerFunctionDef_ok h
  intro f g hf hg hfi hgi
  rw [hg] at hfresh hfe
  rw [Env.has_cons] at hfresh
  have hfr : frameHas g d.fid = false := by
    cases hc : frameHas g d.fid
    · rfl
    · rw [hc] at hfresh; simp at hfresh
  refine ⟨f, (d.fid, d) :: g, ?_, ?_, ?_, ?_, fun s w hx => hx, ?_, ?_, ?_, ?_⟩
  · rw [hse]; exact hf
  · rw [hfe]; simp [Env.setLocal]
  · rw [hls]; exact hfi
  · rw [hlf]; exact FFrameInv_extend hgi hD
  · intro s w hl
    have hne : s ≠ d.fid := by
      intro he; subst he
      rw [frameHas_of_lookup hl] at hfr
      cases hfr
    exact lookup_cons_fresh hne hl
  · intro s hs; rw [hls]; exact hs
  · intro fid hfid; rw [hlf]; exact List.mem_append_left _ hfid
  · intro n hn; simp at hn

theorem registerSparams_post {outerSE : CompilationStreamEnvironment}
    {outerFE : CompilationFunctionEnvironment} {S : List StreamExpressionNode}
    {D : List FunctionDefinitionNode} :
    ∀ (sparams : List StreamID) (σ σ' : CollectState),
    registerSparams sparams σ = .ok σ' →
    CollectPostR outerSE outerFE S D [] σ σ' := by
  intro sparams
  induction sparams with
  | nil =>
      intro σ σ' h
      simp only [registerSparams] at h
      cases h
      exact CollectPostR_rfl
  | cons sid rest ih =>
      intro σ σ' h
      simp only [registerSparams] at h
      split at h
      · cases h
      · rename_i st1 hreg
        exact CollectPostR_trans (registerStreamDef_post hreg (Or.inl rfl)) (ih st1 σ' h)

theorem registerOuts_post {outerSE : CompilationStreamEnvironment}
    {outerFE : CompilationFunctionEnvironment} {S : List StreamExpressionNode}
    {D : List FunctionDefinitionNode} :
    ∀ (outsR : List ApplicationOut) (e : StreamExpressionNode) (σ σ' : CollectState),
    registerOuts e outsR σ = .ok σ' →
    e ∈ S → (∀ out ∈ outsR, out.sid ∈ ownSids e) →
    ∀ f g, σ.streamEnvironment = f :: outerSE → σ.functionEnvironment = g :: outerFE →
      FrameInv S f σ.localStreamIds → FFrameInv D g σ.localFunctionIds →
      ∃ f', σ'.streamEnvironment = f' :: outerSE ∧ σ'.functionEnvironment = g :: outerFE ∧
        FrameInv S f' σ'.localStreamIds ∧ σ'.localFunctionIds = σ.localFunctionIds ∧
        (∀ s v, List.lookup s f = some v → List.lookup s f' = some v) ∧
        (∀ s, s ∈ σ.localStreamIds → s ∈ σ'.localStreamIds) ∧
        (∀ out ∈ outsR, List.lookup out.sid f' = some (some e) ∧
          out.sid ∈ σ'.localStreamIds ∧ frameHas f out.sid = false) ∧
        (outsR.map ApplicationOut.sid).Nodup := by
  intro outsR
  induction outsR with
  | nil =>
      intro e σ σ' h heS houts f g hf hg hfi hgi
      simp only [registerOuts] at h
      cases h
      refine ⟨f, hf, hg, hfi, rfl, fun s v hx => hx, fun s hs => hs, ?_, by simp⟩
      intro out hout
      simp at hout
  | cons out rest ih =>
      intro e σ σ' h heS houts f g hf hg hfi hgi
      simp only [registerOuts] at h
      split at h
      · cases h
      · rename_i st1 hreg
        obtain ⟨hfresh, hse, hls, hfe, hlf⟩ := registerStreamDef_ok hreg
        rw [hf] at hfresh hse
        rw [Env.has_cons] at hfresh
        have hfr : frameHas f out.sid = false := by
          cases hc : frameHas f out.sid
          · rfl
          · rw [hc] at hfresh; simp at hfresh
        have hse1 : st1.streamEnvironment = ((out.sid, some e) :: f) :: outerSE := by
          rw [hse]; simp [Env.setLocal]
        have hfe1 : st1.functionEnvironment = g :: outerFE := by rw [hfe]; exact hg
        have hfi1 : FrameInv S ((out.sid, some e) :: f) st1.localStreamIds := by
          rw [hls]
          exact FrameInv_extend hfi hfr
            (Or.inr ⟨e, rfl, heS, houts out (List.mem_cons.mpr (Or.inl rfl))⟩)
        have hgi1 : FFrameInv D g st1.localFunctionIds := by rw [hlf]; exact hgi
        obtain ⟨f2, hf2, hg2, hfi2, hlf2, hp2, hl2, hro2, hnd2⟩ :=
          ih e st1 σ' h heS (fun o ho => houts o (List.mem_cons.mpr (Or.inr ho)))
            ((out.sid, some e) :: f) g hse1 hfe1 hfi1 hgi1
        refine ⟨f2, hf2, hg2, hfi2, by rw [hlf2, hlf], ?_, ?_, ?_, ?_⟩
        · intro s v hl
          have hne : s ≠ out.sid := by
            intro hee; subst hee
            rw [frameHas_of_lookup hl] at hfr
            cases hfr
          exact hp2 s v (lookup_cons_fresh hne hl)
        · intro s hs
          refine hl2 s ?_
          rw [hls]
          exact List.mem_append_left _ hs
        · intro o ho
          rcases List.mem_cons.mp ho with heq | hmem
          · subst heq
            refine ⟨hp2 _ _ (lookup_cons_self f _ _), ?_, hfr⟩
            refine hl2 _ ?_
            rw [hls]
            exact List.mem_append_right _ (List.mem_singleton.mpr rfl)
          · obtain ⟨hl, hm, hfr1⟩ := hro2 o hmem
            rw [frameHas_cons] at hfr1
            have : frameHas f o.sid = false := by
              cases hc : frameHas f o.sid
              · rfl
              · rw [hc] at hfr1; simp at hfr1
            exact ⟨hl, hm, this⟩
        · simp only [List.map_cons, List.nodup_cons]
          refine ⟨?_, hnd2⟩
          intro hmem
          obtain ⟨o, ho, hos⟩ := List.mem_map.mp hmem
          obtain ⟨_, _, hfr1⟩ := hro2 o ho
          rw [frameHas_cons, hos] at hfr1
          simp at hfr1

theorem CollectPostR_mono {outerSE : CompilationStreamEnvironment}
    {outerFE : CompilationFunctionEnvironment} {S : List StreamExpressionNode}
    {D : List FunctionDefinitionNode} {N N' : List StreamExpressionNode}
    {σ σ' : CollectState}
    (h : CollectPostR outerSE outerFE S D N σ σ') (hsub : ∀ n ∈ N', n ∈ N) :
    CollectPostR outerSE outerFE S D N' σ σ' := by
  intro f g hf hg hfi hgi
  obtain ⟨f1, g1, hf1, hg1, hfi1, hgi1, hp1, hq1, hl1, hm1, hr1⟩ := h f g hf hg hfi hgi
  exact ⟨f1, g1, hf1, hg1, hfi1, hgi1, hp1, hq1, hl1, hm1, fun n hn => hr1 n (hsub n hn)⟩

/-- Registering a literal's own sid also registers the literal itself. -/
theorem registerStreamDef_single_post {outerSE : CompilationStreamEnvironment}
    {outerFE : CompilationFunctionEnvironment} {S : List StreamExpressionNode}
    {D : List FunctionDefinitionNode} {σ σ' : CollectState} {sid : StreamID}
    {t : StreamExpressionNode}
    (h : registerStreamDef σ sid (some t) = .ok σ')
    (htS : t ∈ S) (hsid : ownSids t = [sid]) :
    CollectPostR outerSE outerFE S D [t] σ σ' := by
  obtain ⟨hfresh, hse, hls, hfe, hlf⟩ := registerStreamDef_ok h
  intro f g hf hg hfi hgi
  rw [hf] at hfresh hse
  rw [Env.has_cons] at hfresh
  have hfr : frameHas f sid = false := by
    cases hc : frameHas f sid
    · rfl
    · rw [hc] at hfresh; simp at hfresh
  refine ⟨(sid, some t) :: f, g, ?_, ?_, ?_, ?_, ?_, fun s d hx => hx, ?_, ?_, ?_⟩
  · rw [hse]; simp [Env.setLocal]
  · rw [hfe]; exact hg
  · rw [hls]
    exact FrameInv_extend hfi hfr (Or.inr ⟨t, rfl, htS, by rw [hsid]; simp⟩)
  · rw [hlf]; exact hgi
  · intro s w hl
    have hne : s ≠ sid := by
      intro he; subst he
      rw [frameHas_of_lookup hl] at hfr
      cases hfr
    exact lookup_cons_fresh hne hl
  · intro s hs; rw [hls]; exact List.mem_append_left _ hs
  · intro fid hfid; rw [hlf]; exact hfid
  · intro n hn
    simp only [List.mem_singleton] at hn
    subst hn
    constructor
    · intro s hs
      rw [hsid, List.mem_singleton] at hs
      subst hs
      refine ⟨lookup_cons_self f _ _, ?_⟩
      rw [hls]
      exact List.mem_append_right _ (List.mem_singleton.mpr rfl)
    · rw [hsid]; simp

/-- A stream reference registers nothing, and has nothing to register. -/
theorem collectPostR_refl_ref {outerSE : CompilationStreamEnvironment}
    {outerFE : CompilationFunctionEnvironment} {S : List StreamExpressionNode}
    {D : List FunctionDefinitionNode} {σ : CollectState} {ref : StreamID} :
    CollectPostR outerSE outerFE S D [.streamReference ref] σ σ := by
  intro f g hf hg hfi hgi
  refine ⟨f, g, hf, hg, hfi, hgi, fun s v hx => hx, fun s d hx => hx,
    fun s hs => hs, fun fid hx => hx, ?_⟩
  intro n hn
  simp only [List.mem_singleton] at hn
  subst hn
  exact ⟨fun s hs => by simp [ownSids] at hs, by simp [ownSids]⟩

theorem registerOuts_postR {outerSE : CompilationStreamEnvironment}
    {outerFE : CompilationFunctionEnvironment} {S : List StreamExpressionNode}
    {D : List FunctionDefinitionNode} {σ σ' : CollectState} {aid : ApplicationID}
    {outs : List ApplicationOut} {func : FunctionExprNode}
    {sargs : List StreamExpressionNode} {fargs : List FunctionExprNode}
    (h : registerOuts (.application aid outs func sargs fargs) outs σ = .ok σ')
    (hS : StreamExpressionNode.application aid outs func sargs fargs ∈ S) :
    CollectPostR outerSE outerFE S D
      [.application aid outs func sargs fargs] σ σ' := by
  intro f g hf hg hfi hgi
  obtain ⟨f', hf', hg', hfi', hlf', hp', hl', hro', hnd'⟩ :=
    registerOuts_post outs _ σ σ' h hS
      (fun out hout => by simp only [ownSids]; exact List.mem_map_of_mem _ hout)
      f g hf hg hfi hgi
  refine ⟨f', g, hf', hg', hfi', by rw [hlf']; exact hgi, hp', fun s d hx => hx, hl',
    fun fid => by rw [hlf']; exact id, ?_⟩
  intro n hn
  simp only [List.mem_singleton] at hn
  subst hn
  constructor
  · intro s hs
    simp only [ownSids] at hs
    obtain ⟨out, hout, rfl⟩ := List.mem_map.mp hs
    obtain ⟨hl, hm, _⟩ := hro' out hout
    exact ⟨hl, hm⟩
  · simpa only [ownSids] using hnd'

theorem visitFuncExpr_post {outerSE : CompilationStreamEnvironment}
    {outerFE : CompilationFunctionEnvironment} {S : List StreamExpressionNode}
    {D : List FunctionDefinitionNode} {fe : FunctionExprNode} {σ σ' : CollectState}
    (h : visitFuncExprToFindLocals fe σ = .ok σ')
    (hD : ∀ d ∈ feFnDefs fe, d ∈ D) :
    CollectPostR outerSE outerFE S D [] σ σ' := by
  cases fe with
  | fref fid =>
      simp only [visitFuncExprToFindLocals] at h
      cases h
      exact CollectPostR_rfl
  | fdef d =>
      simp only [visitFuncExprToFindLocals] at h
      exact registerFunctionDef_post h (hD d (by simp [feFnDefs]))

theorem visitFargs_post {outerSE : CompilationStreamEnvironment}
    {outerFE : CompilationFunctionEnvironment} {S : List StreamExpressionNode}
    {D : List FunctionDefinitionNode} :
    ∀ (l : List FunctionExprNode) (σ σ' : CollectState),
    visitFargsToFindLocals l σ = .ok σ' →
    (∀ d ∈ feListFnDefs l, d ∈ D) →
    CollectPostR outerSE outerFE S D [] σ σ' := by
  intro l
  induction l with
  | nil =>
      intro σ σ' h _
      simp only [visitFargsToFindLocals] at h
      cases h
      exact CollectPostR_rfl
  | cons fe rest ih =>
      intro σ σ' h hD
      simp only [visitFargsToFindLocals] at h
      split at h
      · cases h
      · rename_i st1 h1
        have hD1 : ∀ d ∈ feFnDefs fe, d ∈ D := fun d hd =>
          hD d (by simp only [feListFnDefs, List.mem_append]; exact Or.inl hd)
        have hD2 : ∀ d ∈ feListFnDefs rest, d ∈ D := fun d hd =>
          hD d (by simp only [feListFnDefs, List.mem_append]; exact Or.inr hd)
        exact CollectPostR_trans (visitFuncExpr_post h1 hD1) (ih st1 σ' h hD2)

mutual

theorem visitToFindLocals_post {outerSE : CompilationStreamEnvironment}
    {outerFE : CompilationFunctionEnvironment} {S : List StreamExpressionNode}
    {D : List FunctionDefinitionNode} :
    ∀ (e : StreamExpressionNode) (σ σ' : CollectState),
    visitToFindLocals e σ = .ok σ' →
    (∀ n ∈ seSubnodes e, n ∈ S) → (∀ d ∈ seFnDefs e, d ∈ D) →
    CollectPostR outerSE outerFE S D (seSubnodes e) σ σ'
  | .undefinedLiteral sid, σ, σ', h, hS, _ => by
      simp only [visitToFindLocals] at h
      have hone : CollectPostR outerSE outerFE S D [.undefinedLiteral sid] σ σ' :=
        registerStreamDef_single_post h (hS _ (seSubnodes_self _)) (by simp [ownSids])
      exact CollectPostR_mono hone (by simp [seSubnodes])
  | .numberLiteral sid v, σ, σ', h, hS, _ => by
      simp only [visitToFindLocals] at h
      have hone : CollectPostR outerSE outerFE S D [.numberLiteral sid v] σ σ' :=
        registerStreamDef_single_post h (hS _ (seSubnodes_self _)) (by simp [ownSids])
      exact CollectPostR_mono hone (by simp [seSubnodes])
  | .textLiteral sid v, σ, σ', h, hS, _ => by
      simp only [visitToFindLocals] at h
      have hone : CollectPostR outerSE outerFE S D [.textLiteral sid v] σ σ' :=
        registerStreamDef_single_post h (hS _ (seSubnodes_self _)) (by simp [ownSids])
      exact CollectPostR_mono hone (by simp [seSubnodes])
  | .booleanLiteral sid v, σ, σ', h, hS, _ => by
      simp only [visitToFindLocals] at h
      have hone : CollectPostR outerSE outerFE S D [.booleanLiteral sid v] σ σ' :=
        registerStreamDef_single_post h (hS _ (seSubnodes_self _)) (by simp [ownSids])
      exact CollectPostR_mono hone (by simp [seSubnodes])
  | .streamReference ref, σ, σ', h, _, _ => by
      simp only [visitToFindLocals] at h
      cases h
      exact CollectPostR_mono (N := [StreamExpressionNode.streamReference ref])
        collectPostR_refl_ref (by simp [seSubnodes])
  | .application aid outs func sargs fargs, σ, σ', h, hS, hD => by
      simp only [visitToFindLocals] at h
      split at h
      · cases h
      · rename_i st1 h1
        split at h
        · cases h
        · rename_i st2 h2
          split at h
          · cases h
          · rename_i st3 h3
            have happS : StreamExpressionNode.application aid outs func sargs fargs ∈ S :=
              hS _ (seSubnodes_self _)
            have hSargs : ∀ n ∈ seListSubnodes sargs, n ∈ S := fun n hn =>
              hS n (by simp only [seSubnodes, List.mem_cons]; exact Or.inr hn)
            have hDsargs : ∀ d ∈ seListFnDefs sargs, d ∈ D := fun d hd =>
              hD d (by simp only [seFnDefs, List.mem_append]; exact Or.inr hd)
            have hDfunc : ∀ d ∈ feFnDefs func, d ∈ D := fun d hd =>
              hD d (by simp only [seFnDefs, List.mem_append]; exact Or.inl (Or.inl hd))
            have hDfargs : ∀ d ∈ feListFnDefs fargs, d ∈ D := fun d hd =>
              hD d (by simp only [seFnDefs, List.mem_append]; exact Or.inl (Or.inr hd))
            have P1 : CollectPostR outerSE outerFE S D
                [.application aid outs func sargs fargs] σ st1 :=
              registerOuts_postR h1 happS
            have P2 : CollectPostR outerSE outerFE S D (seListSubnodes sargs) st1 st2 :=
              visitSargs_post sargs st1 st2 h2 hSargs hDsargs
            have P3 : CollectPostR outerSE outerFE S D [] st2 st3 :=
              visitFuncExpr_post h3 hDfunc
            have P4 : CollectPostR outerSE outerFE S D [] st3 σ' :=
              visitFargs_post fargs st3 σ' h hDfargs
            have := CollectPostR_trans P1 (CollectPostR_trans P2 (CollectPostR_trans P3 P4))
            refine CollectPostR_mono this ?_
            intro n hn
            simp only [seSubnodes, List.mem_cons] at hn
            simp only [List.mem_append, List.mem_singleton]
            rcases hn with heq | hmem
            · exact Or.inl heq
            · exact Or.inr (Or.inl hmem)
termination_by structural e _ _ _ _ _ => e

theorem visitSargs_post {outerSE : CompilationStreamEnvironment}
    {outerFE : CompilationFunctionEnvironment} {S : List StreamExpressionNode}
    {D : List FunctionDefinitionNode} :
    ∀ (l : List StreamExpressionNode) (σ σ' : CollectState),
    visitSargsToFindLocals l σ = .ok σ' →
    (∀ n ∈ seListSubnodes l, n ∈ S) → (∀ d ∈ seListFnDefs l, d ∈ D) →
    CollectPostR outerSE outerFE S D (seListSubnodes l) σ σ'
  | [], σ, σ', h, _, _ => by
      simp only [visitSargsToFindLocals] at h
      cases h
      exact CollectPostR_mono CollectPostR_rfl (by simp [seListSubnodes])
  | e :: rest, σ, σ', h, hS, hD => by
      simp only [visitSargsToFindLocals] at h
      split at h
      · cases h
      · rename_i st1 h1
        have hSe : ∀ n ∈ seSubnodes e, n ∈ S := fun n hn =>
          hS n (by simp only [seListSubnodes, List.mem_append]; exact Or.inl hn)
        have hSr : ∀ n ∈ seListSubnodes rest, n ∈ S := fun n hn =>
          hS n (by simp only [seListSubnodes, List.mem_append]; exact Or.inr hn)
        have hDe : ∀ d ∈ seFnDefs e, d ∈ D := fun d hd =>
          hD d (by simp only [seListFnDefs, List.mem_append]; exact Or.inl hd)
        have hDr : ∀ d ∈ seListFnDefs rest, d ∈ D := fun d hd =>
          hD d (by simp only [seListFnDefs, List.mem_append]; exact Or.inr hd)
        have P1 : CollectPostR outerSE outerFE S D (seSubnodes e) σ st1 :=
          visitToFindLocals_post e σ st1 h1 hSe hDe
        have P2 : CollectPostR outerSE outerFE S D (seListSubnodes rest) st1 σ' :=
          visitSargs_post rest st1 σ' h hSr hDr
        exact CollectPostR_trans P1 P2
termination_by structural l _ _ _ _ _ => l

end

theorem visitBody_post {outerSE : CompilationStreamEnvironment}
    {outerFE : CompilationFunctionEnvironment} {S : List StreamExpressionNode}
    {D : List FunctionDefinitionNode} :
    ∀ (bes : List BodyExpressionNode) (σ σ' : CollectState),
    visitBodyToFindLocals bes σ = .ok σ' →
    (∀ n ∈ bodyLocalStreamSubnodes bes, n ∈ S) → (∀ d ∈ bodyFnDefs bes, d ∈ D) →
    CollectPostR outerSE outerFE S D (bodyLocalStreamSubnodes bes) σ σ' := by
  intro bes
  induction bes with
  | nil =>
      intro σ σ' h _ _
      simp only [visitBodyToFindLocals] at h
      cases h
      exact CollectPostR_mono CollectPostR_rfl (by simp [bodyLocalStreamSubnodes])
  | cons be rest ih =>
      intro σ σ' h hS hD
      simp only [visitBodyToFindLocals] at h
      split at h
      · cases h
      · rename_i st1 h1
        cases be with
        | streamExpr e =>
            simp only [visitBodyExprToFindLocals] at h1
            have hSe : ∀ n ∈ seSubnodes e, n ∈ S := fun n hn =>
              hS n (by simp only [bodyLocalStreamSubnodes, List.mem_append]; exact Or.inl hn)
            have hSr : ∀ n ∈ bodyLocalStreamSubnodes rest, n ∈ S := fun n hn =>
              hS n (by simp only [bodyLocalStreamSubnodes, List.mem_append]; exact Or.inr hn)
            have hDe : ∀ d ∈ seFnDefs e, d ∈ D := fun d hd =>
              hD d (by simp only [bodyFnDefs, beFnDefs, List.mem_append]; exact Or.inl hd)
            have hDr : ∀ d ∈ bodyFnDefs rest, d ∈ D := fun d hd =>
              hD d (by simp only [bodyFnDefs, beFnDefs, List.mem_append]; exact Or.inr hd)
            have P1 : CollectPostR outerSE outerFE S D (seSubnodes e) σ st1 :=
              visitToFindLocals_post e σ st1 h1 hSe hDe
            have P2 := ih st1 σ' h hSr hDr
            exact CollectPostR_trans P1 P2
        | yieldExpr idx e =>
            simp only [visitBodyExprToFindLocals] at h1
            have hSe : ∀ n ∈ seSubnodes e, n ∈ S := fun n hn =>
              hS n (by simp only [bodyLocalStreamSubnodes, List.mem_append]; exact Or.inl hn)
            have hSr : ∀ n ∈ bodyLocalStreamSubnodes rest, n ∈ S := fun n hn =>
              hS n (by simp only [bodyLocalStreamSubnodes, List.mem_append]; exact Or.inr hn)
            have hDe : ∀ d ∈ seFnDefs e, d ∈ D := fun d hd =>
              hD d (by simp only [bodyFnDefs, beFnDefs, List.mem_append]; exact Or.inl hd)
            have hDr : ∀ d ∈ bodyFnDefs rest, d ∈ D := fun d hd =>
              hD d (by simp only [bodyFnDefs, beFnDefs, List.mem_append]; exact Or.inr hd)
            have P1 : CollectPostR outerSE outerFE S D (seSubnodes e) σ st1 :=
              visitToFindLocals_post e σ st1 h1 hSe hDe
            have P2 := ih st1 σ' h hSr hDr
            exact CollectPostR_trans P1 P2
        | funcDef d =>
            simp only [visitBodyExprToFindLocals] at h1
            have hDd : d ∈ D := by
              refine hD d ?_
              simp [bodyFnDefs, beFnDefs]
            have hDr : ∀ x ∈ bodyFnDefs rest, x ∈ D := fun x hx =>
              hD x (by simp only [bodyFnDefs, beFnDefs, List.mem_append]; exact Or.inr hx)
            have hSr : ∀ n ∈ bodyLocalStreamSubnodes rest, n ∈ S := fun n hn =>
              hS n (by simp only [bodyLocalStreamSubnodes]; exact hn)
            have P1 : CollectPostR outerSE outerFE S D [] σ st1 :=
              registerFunctionDef_post h1 hDd
            have P2 := ih st1 σ' h hSr hDr
            have := CollectPostR_trans P1 P2
            exact CollectPostR_mono this
              (by intro n hn
                  simp only [bodyLocalStreamSubnodes] at hn
                  simpa using hn)

/-- The combined collector run of `compileTreeDefinition` (parameter
registration, then the body walk) establishes the frame invariants at the
final collector state and leaves every stream node of the scope
registered. -/
theorem collect_full {outerSE : CompilationStreamEnvironment}
    {outerFE : CompilationFunctionEnvironment} {sparams : List StreamID}
    {bes : List BodyExpressionNode} {st1 stc : CollectState}
    (h1 : registerSparams sparams ⟨[] :: outerSE, [] :: outerFE, [], []⟩ = .ok st1)
    (h2 : visitBodyToFindLocals bes st1 = .ok stc) :
    ∃ fr g, stc.streamEnvironment = fr :: outerSE ∧
      stc.functionEnvironment = g :: outerFE ∧
      FrameInv (bodyLocalStreamSubnodes bes) fr stc.localStreamIds ∧
      FFrameInv (bodyFnDefs bes) g stc.localFunctionIds ∧
      ∀ n ∈ bodyLocalStreamSubnodes bes, RegisteredIn fr stc.localStreamIds n := by
  have P1 : CollectPostR outerSE outerFE (bodyLocalStreamSubnodes bes) (bodyFnDefs bes)
      [] ⟨[] :: outerSE, [] :: outerFE, [], []⟩ st1 :=
    registerSparams_post sparams _ st1 h1
  have P2 : CollectPostR outerSE outerFE (bodyLocalStreamSubnodes bes) (bodyFnDefs bes)
      (bodyLocalStreamSubnodes bes) st1 stc :=
    visitBody_post bes st1 stc h2 (fun n hn => hn) (fun d hd => hd)
  have P := CollectPostR_trans P1 P2
  obtain ⟨fr, g, hf, hg, hfi, hgi, _, _, _, _, hreg⟩ :=
    P [] [] rfl rfl
      ⟨by intro s; simp [frameHas], by intro p hp; simp at hp⟩
      ⟨by intro fid; simp [frameHas], by intro p hp; simp at hp⟩
  refine ⟨fr, g, hf, hg, hfi, hgi, ?_⟩
  intro n hn
  exact hreg n hn

/-- A successful collector run yields a well-formed traversal context over
the scope universe of local stream-expression nodes. -/
theorem collect_ctxWF {outerSE : CompilationStreamEnvironment}
    {outerFE : CompilationFunctionEnvironment} {sparams : List StreamID}
    {bes : List BodyExpressionNode} {st1 stc : CollectState}
    (h1 : registerSparams sparams ⟨[] :: outerSE, [] :: outerFE, [], []⟩ = .ok st1)
    (h2 : visitBodyToFindLocals bes st1 = .ok stc) :
    CtxWF ⟨stc.localStreamIds, stc.streamEnvironment, stc.functionEnvironment⟩
      (bodyLocalStreamSubnodes bes) := by
  obtain ⟨fr, g, hf, hg, hfi, hgi, hreg⟩ := collect_full h1 h2
  refine ⟨?_, ?_, ?_, ?_, ?_⟩
  · intro n hn s hs
    obtain ⟨hr, _⟩ := hreg n hn
    obtain ⟨hl, hm⟩ := hr s hs
    have hget : Env.get (fr :: outerSE) s = some (some n) := Env.get_head hl
    rw [← hf] at hget
    exact ⟨hm, hget⟩
  · intro s hsmem
    have hhas : frameHas fr s = true := (hfi.1 s).mp hsmem
    obtain ⟨v, hv⟩ := (frameHas_iff_lookup fr s).mp hhas
    have hget : Env.get (fr :: outerSE) s = some v := Env.get_head hv
    rw [← hf] at hget
    refine ⟨v, hget, ?_⟩
    have := hfi.2 (s, v) (lookup_mem hv)
    simpa using this
  · intro n hn
    exact (hreg n hn).2
  · intro aid outs func sargs fargs happ m hm
    exact bodySubnodes_closed bes aid outs func sargs fargs happ m hm
  · exact ⟨fr, outerSE, hf, hfi.1⟩

/-- The top-level body pass preserves the traversal invariant and restores
the temporary-mark set. -/
theorem bodyPass_good {ctx : TraverseCtx} {S : List StreamExpressionNode}
    (wf : CtxWF ctx S) (fuel : Nat) :
    ∀ (bes : List BodyExpressionNode) (st : TraverseState) (yi : List (Option StreamID))
      (st2 : TraverseState) (yi2 : List (Option StreamID)),
    (∀ n ∈ bodyLocalStreamSubnodes bes, n ∈ S) → GoodState ctx st →
    bodyPass ctx fuel bes st yi = .ok (st2, yi2) →
    GoodState ctx st2 ∧ st2.temporaryMarked = st.temporaryMarked := by
  intro bes
  induction bes with
  | nil =>
      intro st yi st2 yi2 _ hg h
      simp only [bodyPass] at h
      cases h
      exact ⟨hg, rfl⟩
  | cons be rest ih =>
      intro st yi st2 yi2 hS hg h
      cases be with
      | streamExpr e =>
          simp only [bodyPass] at h
          split at h
          · cases h
          · rename_i st1 h1
            have heS : e ∈ S := hS e (by
              simp only [bodyLocalStreamSubnodes, List.mem_append]
              exact Or.inl (seSubnodes_self e))
            have T1 := (traverse_ok wf fuel).1 e st st1 heS hg h1
            have hSr : ∀ n ∈ bodyLocalStreamSubnodes rest, n ∈ S := fun n hn =>
              hS n (by simp only [bodyLocalStreamSubnodes, List.mem_append]; exact Or.inr hn)
            obtain ⟨hg2, ht⟩ := ih st1 yi st2 yi2 hSr T1.good h
            exact ⟨hg2, by rw [ht, T1.tempEq]⟩
      | yieldExpr idx e =>
          simp only [bodyPass] at h
          split at h
          · cases h
          · rename_i st1 h1
            split at h
            · cases h
            · rename_i rid hrid
              have heS : e ∈ S := hS e (by
                simp only [bodyLocalStreamSubnodes, List.mem_append]
                exact Or.inl (seSubnodes_self e))
              have T1 := (traverse_ok wf fuel).1 e st st1 heS hg h1
              have hSr : ∀ n ∈ bodyLocalStreamSubnodes rest, n ∈ S := fun n hn =>
                hS n (by simp only [bodyLocalStreamSubnodes, List.mem_append]; exact Or.inr hn)
              obtain ⟨hg2, ht⟩ := ih st1 (sparseSet yi idx rid) st2 yi2 hSr T1.good h
              exact ⟨hg2, by rw [ht, T1.tempEq]⟩
      | funcDef d =>
          simp only [bodyPass] at h
          cases h

/-- Eliminating a successful `compileTreeDefinition` run: the collector
produced a well-formed scope, the body pass ran in the traversal invariant,
and the returned compiled definition is assembled from the final traversal
state. -/
theorem compileTree_ok_elim {fuel : Nat} {defn : TreeFunctionDefinitionNode}
    {outerSE : CompilationStreamEnvironment} {outerFE : CompilationFunctionEnvironment}
    {cd : CompiledDefinition} {extIds : List StreamID}
    (h : compileTreeDefinition fuel defn outerSE outerFE = .ok (cd, extIds)) :
    ∃ (stc : CollectState) (st : TraverseState)
      (fr : Frame (Option StreamExpressionNode)),
      stc.streamEnvironment = fr :: outerSE ∧
      (∀ s, s ∈ stc.localStreamIds ↔ frameHas fr s = true) ∧
      GoodState ⟨stc.localStreamIds, stc.streamEnvironment, stc.functionEnvironment⟩ st ∧
      cd.constStreams = st.constStreams ∧ cd.apps = st.apps ∧
      extIds = st.externalReferencedStreamIds := by
  cases fuel with
  | zero => simp [compileTreeDefinition] at h
  | succ f =>
      simp only [compileTreeDefinition] at h
      split at h
      · cases h
      · rename_i st1 h1
        split at h
        · cases h
        · rename_i stc h2
          split at h
          · cases h
          · rename_i localDefs h3
            split at h
            · cases h
            · rename_i st yieldIds h4
              cases h
              have wf := collect_ctxWF h1 h2
              obtain ⟨fr, g, hf, hg, hfi, hgi, hreg⟩ := collect_full h1 h2
              obtain ⟨hgood, _⟩ := bodyPass_good wf (f + 1) defn.bodyExprs
                initTraverseState [] st yieldIds (fun n hn => hn) (goodState_init _) h4
              exact ⟨stc, st, fr, hf, hfi.1, hgood, rfl, rfl, rfl⟩

/-!
## Fuel sufficiency
-/

/-- Result classifier for the termination theorem: did a run end in the
embedding's fuel-exhaustion marker (which has no counterpart in the source,
whose recursion is unbounded)? -/
def isOutOfFuel {α : Type} : Except CompErr α → Bool
  | .error .outOfFuel => true
  | _ => false

theorem registerStreamDef_not_fuel {σ : CollectState} {sid : StreamID}
    {v : Option StreamExpressionNode} :
    registerStreamDef σ sid v ≠ .error .outOfFuel := by
  by_cases h : Env.has σ.streamEnvironment sid <;> simp [registerStreamDef, h]

theorem registerFunctionDef_not_fuel {σ : CollectState} {d : FunctionDefinitionNode} :
    registerFunctionDef σ d ≠ .error .outOfFuel := by
  by_cases h : Env.has σ.functionEnvironment d.fid <;> simp [registerFunctionDef, h]

theorem registerSparams_not_fuel : ∀ (l : List StreamID) (σ : CollectState),
    registerSparams l σ ≠ .error .outOfFuel := by
  intro l
  induction l with
  | nil => intro σ h; simp [registerSparams] at h
  | cons sid rest ih =>
      intro σ h
      simp only [registerSparams] at h
      split at h
      · rename_i e he
        cases h
        exact registerStreamDef_not_fuel he
      · rename_i st1 h1
        exact ih st1 h

theorem registerOuts_not_fuel : ∀ (outsR : List ApplicationOut)
    (e : StreamExpressionNode) (σ : CollectState),
    registerOuts e outsR σ ≠ .error .outOfFuel := by
  intro outsR
  induction outsR with
  | nil => intro e σ h; simp [registerOuts] at h
  | cons out rest ih =>
      intro e σ h
      simp only [registerOuts] at h
      split at h
      · rename_i er her
        cases h
        exact registerStreamDef_not_fuel her
      · rename_i st1 h1
        exact ih e st1 h

theorem visitFuncExpr_not_fuel {fe : FunctionExprNode} {σ : CollectState} :
    visitFuncExprToFindLocals fe σ ≠ .error .outOfFuel := by
  cases fe with
  | fref fid => simp [visitFuncExprToFindLocals]
  | fdef d =>
      simp only [visitFuncExprToFindLocals]
      exact registerFunctionDef_not_fuel

theorem visitFargs_not_fuel : ∀ (l : List FunctionExprNode) (σ : CollectState),
    visitFargsToFindLocals l σ ≠ .error .outOfFuel := by
  intro l
  induction l with
  | nil => intro σ h; simp [visitFargsToFindLocals] at h
  | cons fe rest ih =>
      intro σ h
      simp only [visitFargsToFindLocals] at h
      split at h
      · rename_i e he
        cases h
        exact visitFuncExpr_not_fuel he
      · rename_i st1 h1
        exact ih st1 h

mutual

theorem visitToFindLocals_not_fuel : ∀ (e : StreamExpressionNode) (σ : CollectState),
    visitToFindLocals e σ ≠ .error .outOfFuel
  | .undefinedLiteral sid, σ => by
      simp only [visitToFindLocals]
      exact registerStreamDef_not_fuel
  | .numberLiteral sid v, σ => by
      simp only [visitToFindLocals]
      exact registerStreamDef_not_fuel
  | .textLiteral sid v, σ => by
      simp only [visitToFindLocals]
      exact registerStreamDef_not_fuel
  | .booleanLiteral sid v, σ => by
      simp only [visitToFindLocals]
      exact registerStreamDef_not_fuel
  | .streamReference ref, σ => by
      simp [visitToFindLocals]
  | .application aid outs func sargs fargs, σ => by
      intro h
      simp only [visitToFindLocals] at h
      split at h
      · rename_i e he
        cases h
        exact registerOuts_not_fuel _ _ _ he
      · rename_i st1 h1
        split at h
        · rename_i e he
          cases h
          exact visitSargs_not_fuel sargs st1 he
        · rename_i st2 h2
          split at h
          · rename_i e he
            cases h
            exact visitFuncExpr_not_fuel he
          · rename_i st3 h3
            exact visitFargs_not_fuel fargs st3 h
termination_by structural e _ => e

theorem visitSargs_not_fuel : ∀ (l : List StreamExpressionNode) (σ : CollectState),
    visitSargsToFindLocals l σ ≠ .error .outOfFuel
  | [], σ => by simp [visitSargsToFindLocals]
  | e :: rest, σ => by
      intro h
      simp only [visitSargsToFindLocals] at h
      split at h
      · rename_i er her
        cases h
        exact visitToFindLocals_not_fuel e σ her
      · rename_i st1 h1
        exact visitSargs_not_fuel rest st1 h
termination_by structural l _ => l

end

theorem visitBody_not_fuel : ∀ (bes : List BodyExpressionNode) (σ : CollectState),
    visitBodyToFindLocals bes σ ≠ .error .outOfFuel := by
  intro bes
  induction bes with
  | nil => intro σ h; simp [visitBodyToFindLocals] at h
  | cons be rest ih =>
      intro σ h
      simp only [visitBodyToFindLocals] at h
      split at h
      · rename_i e he
        cases h
        cases be with
        | streamExpr se0 => exact visitToFindLocals_not_fuel se0 σ (by simpa [visitBodyExprToFindLocals] using he)
        | yieldExpr idx se0 => exact visitToFindLocals_not_fuel se0 σ (by simpa [visitBodyExprToFindLocals] using he)
        | funcDef d => exact registerFunctionDef_not_fuel (by simpa [visitBodyExprToFindLocals] using he)
      · rename_i st1 h1
        exact ih st1 h

theorem resolveFargs_not_fuel {ctx : TraverseCtx} : ∀ (l : List FunctionExprNode),
    resolveFargs ctx l ≠ .error .outOfFuel := by
  intro l
  induction l with
  | nil => simp [resolveFargs]
  | cons fe rest ih =>
      intro h
      simp only [resolveFargs] at h
      split at h
      · simp at h
      · split at h
        · rename_i e he
          cases h
          exact ih he
        · cases h

mutual

/-- Fuel needed by the nested compilations reachable beneath a stream
expression (inline function definitions start nested scopes; stream
arguments stay in this one). -/
def seBound : StreamExpressionNode → Nat
  | .application _ _ func sargs fargs => feBound func + feListBound fargs + seListBound sargs
  | _ => 0
termination_by structural e => e

def seListBound : List StreamExpressionNode → Nat
  | [] => 0
  | e :: rest => seBound e + seListBound rest
termination_by structural l => l

def feBound : FunctionExprNode → Nat
  | .fref _ => 0
  | .fdef d => fdBound d

def feListBound : List FunctionExprNode → Nat
  | [] => 0
  | fe :: rest => feBound fe + feListBound rest
termination_by structural l => l

def fdBound : FunctionDefinitionNode → Nat
  | .native _ => 0
  | .tree d => tfdBound d

/-- Fuel sufficient for `compileTreeDefinition` on this definition: one for
the top call, the scope size for the depth of its own traversal, and the
bounds of every nested definition. -/
def tfdBound : TreeFunctionDefinitionNode → Nat
  | .mk _ _ _ bes => (bodyLocalStreamSubnodes bes).length + bodyBound bes + 1

def beBound : BodyExpressionNode → Nat
  | .streamExpr e => seBound e
  | .yieldExpr _ e => seBound e
  | .funcDef d => fdBound d

def bodyBound : List BodyExpressionNode → Nat
  | [] => 0
  | be :: rest => beBound be + bodyBound rest

end

theorem fdBound_le_feBound : ∀ (fe : FunctionExprNode) (d : FunctionDefinitionNode),
    d ∈ feFnDefs fe → fdBound d ≤ feBound fe := by
  intro fe d hd
  cases fe with
  | fref fid => simp [feFnDefs] at hd
  | fdef d0 =>
      simp only [feFnDefs, List.mem_singleton] at hd
      subst hd
      simp [feBound]

theorem fdBound_le_feListBound : ∀ (l : List FunctionExprNode) (d : FunctionDefinitionNode),
    d ∈ feListFnDefs l → fdBound d ≤ feListBound l := by
  intro l
  induction l with
  | nil => intro d hd; simp [feListFnDefs] at hd
  | cons fe rest ih =>
      intro d hd
      simp only [feListFnDefs, List.mem_append] at hd
      simp only [feListBound]
      rcases hd with h | h
      · have := fdBound_le_feBound fe d h
        omega
      · have := ih d h
        omega

mutual

theorem fdBound_le_seBound : ∀ (e : StreamExpressionNode) (d : FunctionDefinitionNode),
    d ∈ seFnDefs e → fdBound d ≤ seBound e
  | .undefinedLiteral _, d, hd => by simp [seFnDefs] at hd
  | .numberLiteral _ _, d, hd => by simp [seFnDefs] at hd
  | .textLiteral _ _, d, hd => by simp [seFnDefs] at hd
  | .booleanLiteral _ _, d, hd => by simp [seFnDefs] at hd
  | .streamReference _, d, hd => by simp [seFnDefs] at hd
  | .application aid outs func sargs fargs, d, hd => by
      simp only [seFnDefs, List.mem_append] at hd
      simp only [seBound]
      rcases hd with (h | h) | h
      · have := fdBound_le_feBound func d h
        omega
      · have := fdBound_le_feListBound fargs d h
        omega
      · have := fdBound_le_seListBound sargs d h
        omega
termination_by structural e _ _ => e

theorem fdBound_le_seListBound : ∀ (l : List StreamExpressionNode) (d : FunctionDefinitionNode),
    d ∈ seListFnDefs l → fdBound d ≤ seListBound l
  | [], d, hd => by simp [seListFnDefs] at hd
  | e :: rest, d, hd => by
      simp only [seListFnDefs, List.mem_append] at hd
      simp only [seListBound]
      rcases hd with h | h
      · have := fdBound_le_seBound e d h
        omega
      · have := fdBound_le_seListBound rest d h
        omega
termination_by structural l _ _ => l

end

theorem fdBound_le_beBound : ∀ (be : BodyExpressionNode) (d : FunctionDefinitionNode),
    d ∈ beFnDefs be → fdBound d ≤ beBound be := by
  intro be d hd
  cases be with
  | streamExpr e => exact fdBound_le_seBound e d (by simpa [beFnDefs] using hd)
  | yieldExpr idx e => exact fdBound_le_seBound e d (by simpa [beFnDefs] using hd)
  | funcDef d0 =>
      simp only [beFnDefs, List.mem_singleton] at hd
      subst hd
      simp [beBound]

theorem fdBound_le_bodyBound : ∀ (bes : List BodyExpressionNode) (d : FunctionDefinitionNode),
    d ∈ bodyFnDefs bes → fdBound d ≤ bodyBound bes := by
  intro bes
  induction bes with
  | nil => intro d hd; simp [bodyFnDefs] at hd
  | cons be rest ih =>
      intro d hd
      simp only [bodyFnDefs, List.mem_append] at hd
      simp only [bodyBound]
      rcases hd with h | h
      · have := fdBound_le_beBound be d h
        omega
      · have := ih d h
        omega

theorem tfdBound_eq (defn : TreeFunctionDefinitionNode) :
    tfdBound defn =
      (bodyLocalStreamSubnodes defn.bodyExprs).length + bodyBound defn.bodyExprs + 1 := by
  cases defn
  rfl

theorem nodup_sub_card {l S : List StreamExpressionNode}
    (hnd : l.Nodup) (hsub : ∀ t ∈ l, t ∈ S) : l.length ≤ S.toFinset.card := by
  have h1 : l.toFinset.card = l.length := List.toFinset_card_of_nodup hnd
  have h2 : l.toFinset ⊆ S.toFinset := by
    intro x hx
    rw [List.mem_toFinset] at hx ⊢
    exact hsub x hx
  calc l.length = l.toFinset.card := h1.symm
    _ ≤ S.toFinset.card := Finset.card_le_card h2

/-- With fuel exceeding the number of distinct scope nodes not yet on the
active path, `traverseStreamExpr` never exhausts its fuel: each recursive
descent temporary-marks one more distinct node of the scope. -/
theorem traverse_fuel {ctx : TraverseCtx} {S : List StreamExpressionNode} (wf : CtxWF ctx S) :
    ∀ fuel : Nat,
      (∀ node st, node ∈ S → GoodState ctx st →
          st.temporaryMarked.Nodup → (∀ t ∈ st.temporaryMarked, t ∈ S) →
          S.toFinset.card + 1 ≤ fuel + st.temporaryMarked.length →
          traverseStreamExpr ctx fuel node st ≠ .error .outOfFuel) ∧
      (∀ sargs st, (∀ e ∈ sargs, e ∈ S) → GoodState ctx st →
          st.temporaryMarked.Nodup → (∀ t ∈ st.temporaryMarked, t ∈ S) →
          S.toFinset.card + 1 ≤ fuel + st.temporaryMarked.length →
          traverseSargsWith (traverseStreamExpr ctx fuel) sargs st ≠ .error .outOfFuel) := by
  intro fuel
  induction fuel with
  | zero =>
      constructor
      · intro node st _ _ hnd hsub hle _
        have := nodup_sub_card hnd hsub
        omega
      · intro sargs st _ _ hnd hsub hle _
        have := nodup_sub_card hnd hsub
        omega
  | succ fuel ih =>
      obtain ⟨ihT, ihL⟩ := ih
      have htrav : ∀ node st, node ∈ S → GoodState ctx st →
          st.temporaryMarked.Nodup → (∀ t ∈ st.temporaryMarked, t ∈ S) →
          S.toFinset.card + 1 ≤ (fuel + 1) + st.temporaryMarked.length →
          traverseStreamExpr ctx (fuel + 1) node st ≠ .error .outOfFuel := by
        intro node st hS hg hnd hsub hle hrun
        have hins : node ∉ st.temporaryMarked →
            List.insert node st.temporaryMarked = node :: st.temporaryMarked :=
          fun h => List.insert_of_not_mem h
        cases node with
        | undefinedLiteral sid =>
            simp only [traverseStreamExpr] at hrun
            by_cases hperm : (.undefinedLiteral sid : StreamExpressionNode) ∈ st.permanentMarked
            · rw [if_pos hperm] at hrun; cases hrun
            · rw [if_neg hperm] at hrun
              by_cases htemp : (.undefinedLiteral sid : StreamExpressionNode) ∈ st.temporaryMarked
              · rw [if_pos htemp] at hrun; simp at hrun
              · rw [if_neg htemp] at hrun; cases hrun
        | numberLiteral sid v =>
            simp only [traverseStreamExpr] at hrun
            by_cases hperm : (.numberLiteral sid v : StreamExpressionNode) ∈ st.permanentMarked
            · rw [if_pos hperm] at hrun; cases hrun
            · rw [if_neg hperm] at hrun
              by_cases htemp : (.numberLiteral sid v : StreamExpressionNode) ∈ st.temporaryMarked
              · rw [if_pos htemp] at hrun; simp at hrun
              · rw [if_neg htemp] at hrun; cases hrun
        | textLiteral sid v =>
            simp only [traverseStreamExpr] at hrun
            by_cases hperm : (.textLiteral sid v : StreamExpressionNode) ∈ st.permanentMarked
            · rw [if_pos hperm] at hrun; cases hrun
            · rw [if_neg hperm] at hrun
              by_cases htemp : (.textLiteral sid v : StreamExpressionNode) ∈ st.temporaryMarked
              · rw [if_pos htemp] at hrun; simp at hrun
              · rw [if_neg htemp] at hrun; cases hrun
        | booleanLiteral sid v =>
            simp only [traverseStreamExpr] at hrun
            by_cases hperm : (.booleanLiteral sid v : StreamExpressionNode) ∈ st.permanentMarked
            · rw [if_pos hperm] at hrun; cases hrun
            · rw [if_neg hperm] at hrun
              by_cases htemp : (.booleanLiteral sid v : StreamExpressionNode) ∈ st.temporaryMarked
              · rw [if_pos htemp] at hrun; simp at hrun
              · rw [if_neg htemp] at hrun; cases hrun
        | streamReference ref =>
            simp only [traverseStreamExpr] at hrun
            by_cases hperm : (.streamReference ref : StreamExpressionNode) ∈ st.permanentMarked
            · rw [if_pos hperm] at hrun; cases hrun
            · rw [if_neg hperm] at hrun
              by_cases htemp : (.streamReference ref : StreamExpressionNode) ∈ st.temporaryMarked
              · rw [if_pos htemp] at hrun; simp at hrun
              · rw [if_neg htemp] at hrun
                by_cases hloc : ref ∈ ctx.localStreamIds
                · rw [if_pos hloc] at hrun
                  split at hrun
                  · cases hrun
                  · simp at hrun
                  · rename_i target hget
                    split at hrun
                    · rename_i er her
                      cases hrun
                      obtain ⟨v, hv, hvd⟩ := wf.regBack ref hloc
                      rw [hget] at hv
                      cases hv
                      have htS : target ∈ S := by
                        rcases hvd with h | ⟨t, ht, htmem, _⟩
                        · cases h
                        · cases ht; exact htmem
                      have hi := hins htemp
                      refine ihT target
                        { st with temporaryMarked :=
                            List.insert (StreamExpressionNode.streamReference ref) st.temporaryMarked }
                        htS (hg.withTemp _) ?_ ?_ ?_ her
                      · rw [hi]
                        exact List.nodup_cons.mpr ⟨htemp, hnd⟩
                      · rw [hi]
                        intro t ht
                        rcases List.mem_cons.mp ht with he2 | hm
                        · subst he2; exact hS
                        · exact hsub t hm
                      · rw [hi]
                        simp only [List.length_cons]
                        omega
                    · cases hrun
                · rw [if_neg hloc] at hrun
                  by_cases hhas : Env.has ctx.streamEnvironment ref = true
                  · rw [if_pos hhas] at hrun; cases hrun
                  · rw [if_neg hhas] at hrun; simp at hrun
        | application aid outs func sargs fargs =>
            simp only [traverseStreamExpr] at hrun
            by_cases hperm :
                (.application aid outs func sargs fargs : StreamExpressionNode) ∈ st.permanentMarked
            · rw [if_pos hperm] at hrun; cases hrun
            · rw [if_neg hperm] at hrun
              by_cases htemp :
                  (.application aid outs func sargs fargs : StreamExpressionNode) ∈ st.temporaryMarked
              · rw [if_pos htemp] at hrun; simp at hrun
              · rw [if_neg htemp] at hrun
                split at hrun
                · simp at hrun
                · split at hrun
                  · rename_i er her
                    cases hrun
                    have hclosed : ∀ e ∈ sargs, e ∈ S :=
                      wf.sargsClosed aid outs func sargs fargs hS
                    have hi := hins htemp
                    refine ihL sargs
                      { st with temporaryMarked := List.insert (StreamExpressionNode.application aid outs func sargs fargs) st.temporaryMarked }
                      hclosed (hg.withTemp _) ?_ ?_ ?_ her
                    · rw [hi]
                      exact List.nodup_cons.mpr ⟨htemp, hnd⟩
                    · rw [hi]
                      intro t ht
                      rcases List.mem_cons.mp ht with he2 | hm
                      · subst he2; exact hS
                      · exact hsub t hm
                    · rw [hi]
                      simp only [List.length_cons]
                      omega
                  · rename_i sargIds st2 hsa
                    split at hrun
                    · rename_i er her
                      cases hrun
                      exact resolveFargs_not_fuel fargs her
                    · cases hrun
      refine ⟨htrav, ?_⟩
      intro sargs
      induction sargs with
      | nil =>
          intro st _ _ _ _ _ hrun
          simp [traverseSargsWith] at hrun
      | cons e rest ihl =>
          intro st hall hg hnd hsub hle hrun
          simp only [traverseSargsWith] at hrun
          split at hrun
          · rename_i er her
            cases hrun
            exact htrav e st (hall e (by simp)) hg hnd hsub hle her
          · rename_i st1 h1
            split at hrun
            · simp at hrun
            · rename_i rid hrid
              split at hrun
              · rename_i er her
                cases hrun
                have T1 := (traverse_ok wf (fuel + 1)).1 e st st1 (hall e (by simp)) hg h1
                refine ihl st1 (fun x hx => hall x (by simp [hx])) T1.good ?_ ?_ ?_ her
                · rw [T1.tempEq]; exact hnd
                · rw [T1.tempEq]; exact hsub
                · rw [T1.tempEq]; exact hle
              · cases hrun

/-- The top-level body pass never exhausts its fuel when the fuel exceeds
the number of distinct scope nodes (it starts every traversal with an empty
active path). -/
theorem bodyPass_fuel {ctx : TraverseCtx} {S : List StreamExpressionNode}
    (wf : CtxWF ctx S) (fuel : Nat) :
    ∀ (bes : List BodyExpressionNode) (st : TraverseState) (yi : List (Option StreamID)),
    (∀ n ∈ bodyLocalStreamSubnodes bes, n ∈ S) → GoodState ctx st →
    st.temporaryMarked = [] →
    S.toFinset.card + 1 ≤ fuel →
    bodyPass ctx fuel bes st yi ≠ .error .outOfFuel := by
  intro bes
  induction bes with
  | nil =>
      intro st yi _ _ _ _ h
      simp [bodyPass] at h
  | cons be rest ih =>
      intro st yi hS hg htemp hle h
      cases be with
      | streamExpr e =>
          simp only [bodyPass] at h
          split at h
          · rename_i er her
            cases h
            have heS : e ∈ S := hS e (by
              simp only [bodyLocalStreamSubnodes, List.mem_append]
              exact Or.inl (seSubnodes_self e))
            refine (traverse_fuel wf fuel).1 e st heS hg ?_ ?_ ?_ her
            · rw [htemp]; exact List.nodup_nil
            · rw [htemp]; intro t ht; simp at ht
            · rw [htemp]; simp; omega
          · rename_i st1 h1
            have heS : e ∈ S := hS e (by
              simp only [bodyLocalStreamSubnodes, List.mem_append]
              exact Or.inl (seSubnodes_self e))
            have T1 := (traverse_ok wf fuel).1 e st st1 heS hg h1
            have hSr : ∀ n ∈ bodyLocalStreamSubnodes rest, n ∈ S := fun n hn =>
              hS n (by simp only [bodyLocalStreamSubnodes, List.mem_append]; exact Or.inr hn)
            exact ih st1 yi hSr T1.good (by rw [T1.tempEq]; exact htemp) hle h
      | yieldExpr idx e =>
          simp only [bodyPass] at h
          split at h
          · rename_i er her
            cases h
            have heS : e ∈ S := hS e (by
              simp only [bodyLocalStreamSubnodes, List.mem_append]
              exact Or.inl (seSubnodes_self e))
            refine (traverse_fuel wf fuel).1 e st heS hg ?_ ?_ ?_ her
            · rw [htemp]; exact List.nodup_nil
            · rw [htemp]; intro t ht; simp at ht
            · rw [htemp]; simp; omega
          · rename_i st1 h1
            split at h
            · simp at h
            · rename_i rid hrid
              have heS : e ∈ S := hS e (by
                simp only [bodyLocalStreamSubnodes, List.mem_append]
                exact Or.inl (seSubnodes_self e))
              have T1 := (traverse_ok wf fuel).1 e st st1 heS hg h1
              have hSr : ∀ n ∈ bodyLocalStreamSubnodes rest, n ∈ S := fun n hn =>
                hS n (by simp only [bodyLocalStreamSubnodes, List.mem_append]; exact Or.inr hn)
              exact ih st1 (sparseSet yi idx rid) hSr T1.good
                (by rw [T1.tempEq]; exact htemp) hle h
      | funcDef d =>
          simp [bodyPass] at h

/-- The nested-definition loop never exhausts its fuel as long as no nested
compilation it performs does. -/
theorem compileLocalDefsWith_not_fuel
    (cmp : TreeFunctionDefinitionNode → CompilationStreamEnvironment → CompilationFunctionEnvironment → Except CompErr (CompiledDefinition × List StreamID)) :
    ∀ (lfids : List FunctionID) (functionEnvironment : CompilationFunctionEnvironment)
      (streamEnvironment : CompilationStreamEnvironment),
    (∀ fid ∈ lfids, ∀ d, Env.get functionEnvironment fid = some (.tree d) →
        cmp d streamEnvironment functionEnvironment ≠ .error .outOfFuel) →
    compileLocalDefsWith cmp lfids functionEnvironment streamEnvironment ≠ .error .outOfFuel := by
  intro lfids
  induction lfids with
  | nil =>
      intro fe se _ h
      simp [compileLocalDefsWith] at h
  | cons fid rest ih =>
      intro fe se hcall h
      simp only [compileLocalDefsWith] at h
      split at h
      · simp at h
      · exact ih fe se (fun x hx d hd => hcall x (List.mem_cons.mpr (Or.inr hx)) d hd) h
      · rename_i d hget
        split at h
        · rename_i er her
          cases h
          exact hcall fid (List.mem_cons.mpr (Or.inl rfl)) d hget her
        · rename_i cd hcd
          split at h
          · rename_i er her
            cases h
            exact ih fe se (fun x hx d2 hd2 => hcall x (List.mem_cons.mpr (Or.inr hx)) d2 hd2) her
          · cases h

/-- `compileTreeDefinition` at the computed bound never exhausts its fuel:
every run at that bound returns a compiled definition or one of the source's
own errors. -/
theorem compileTree_fuel : ∀ (fuel : Nat) (defn : TreeFunctionDefinitionNode)
    (outerSE : CompilationStreamEnvironment) (outerFE : CompilationFunctionEnvironment),
    tfdBound defn ≤ fuel →
    compileTreeDefinition fuel defn outerSE outerFE ≠ .error .outOfFuel := by
  intro fuel
  induction fuel with
  | zero =>
      intro defn se fe hle h
      rw [tfdBound_eq] at hle
      omega
  | succ f ih =>
      intro defn se fe hle h
      simp only [compileTreeDefinition] at h
      split at h
      · rename_i er her
        cases h
        exact registerSparams_not_fuel _ _ her
      · rename_i st1 h1
        split at h
        · rename_i er her
          cases h
          exact visitBody_not_fuel _ _ her
        · rename_i stc h2
          obtain ⟨fr, g, hf, hg, hfi, hgi, hreg⟩ := collect_full h1 h2
          have wf := collect_ctxWF h1 h2
          have hcard : (bodyLocalStreamSubnodes defn.bodyExprs).toFinset.card
              ≤ (bodyLocalStreamSubnodes defn.bodyExprs).length := List.toFinset_card_le _
          rw [tfdBound_eq] at hle
          split at h
          · rename_i er her
            cases h
            refine compileLocalDefsWith_not_fuel _ stc.localFunctionIds
              stc.functionEnvironment stc.streamEnvironment ?_ her
            intro fid hfid d hget
            have hhas : frameHas g fid = true := (hgi.1 fid).mp hfid
            obtain ⟨d0, hd0⟩ := (frameHas_iff_lookup g fid).mp hhas
            have hget0 : Env.get stc.functionEnvironment fid = some d0 := by
              rw [hg]; exact Env.get_head hd0
            rw [hget0] at hget
            cases hget
            have hmem : FunctionDefinitionNode.tree d ∈ bodyFnDefs defn.bodyExprs :=
              (hgi.2 (fid, .tree d) (lookup_mem hd0)).2
            have hb := fdBound_le_bodyBound defn.bodyExprs _ hmem
            simp only [fdBound] at hb
            exact ih d stc.streamEnvironment stc.functionEnvironment (by omega)
          · rename_i localDefs h3
            split at h
            · rename_i er her
              cases h
              exact bodyPass_fuel wf (f + 1) defn.bodyExprs initTraverseState []
                (fun n hn => hn) (goodState_init _) rfl (by omega) her
            · cases h

/-- What the nested-definition loop produces: every id that resolves to a
tree definition is compiled and keyed into the output, and every output
entry arises that way (so native definitions are skipped). -/
theorem compileLocalDefsWith_spec
    (cmp : TreeFunctionDefinitionNode → CompilationStreamEnvironment → CompilationFunctionEnvironment → Except CompErr (CompiledDefinition × List StreamID)) :
    ∀ (lfids : List FunctionID) (fe : CompilationFunctionEnvironment)
      (se : CompilationStreamEnvironment) (localDefs : List (FunctionID × CompiledDefinition)),
    compileLocalDefsWith cmp lfids fe se = .ok localDefs →
    (∀ fid ∈ lfids, ∀ d, Env.get fe fid = some (.tree d) →
        ∃ cd ext, cmp d se fe = .ok (cd, ext) ∧ (fid, cd) ∈ localDefs) ∧
    (∀ p ∈ localDefs, p.1 ∈ lfids ∧
        ∃ d ext, Env.get fe p.1 = some (.tree d) ∧ cmp d se fe = .ok (p.2, ext)) := by
  intro lfids
  induction lfids with
  | nil =>
      intro fe se localDefs h
      simp only [compileLocalDefsWith] at h
      cases h
      exact ⟨fun fid hfid => by simp at hfid, fun p hp => by simp at hp⟩
  | cons fid rest ih =>
      intro fe se localDefs h
      simp only [compileLocalDefsWith] at h
      split at h
      · cases h
      · rename_i nfid hgetn
        obtain ⟨ih1, ih2⟩ := ih fe se localDefs h
        constructor
        · intro x hx d hget
          rcases List.mem_cons.mp hx with heq | hmem
          · subst heq
            rw [hgetn] at hget
            cases hget
          · exact ih1 x hmem d hget
        · intro p hp
          obtain ⟨hmem, hrest⟩ := ih2 p hp
          exact ⟨List.mem_cons.mpr (Or.inr hmem), hrest⟩
      · rename_i d0 hget0
        split at h
        · cases h
        · rename_i cd0 ext0 hcmp
          split at h
          · cases h
          · rename_i restDefs hrest
            cases h
            obtain ⟨ih1, ih2⟩ := ih fe se restDefs hrest
            constructor
            · intro x hx d hget
              rcases List.mem_cons.mp hx with heq | hmem
              · subst heq
                rw [hget0] at hget
                cases hget
                exact ⟨cd0, ext0, hcmp, List.mem_cons.mpr (Or.inl rfl)⟩
              · obtain ⟨cd1, ext1, hc1, hm1⟩ := ih1 x hmem d hget
                exact ⟨cd1, ext1, hc1, List.mem_cons.mpr (Or.inr hm1)⟩
            · intro p hp
              rcases List.mem_cons.mp hp with heq | hmem
              · subst heq
                exact ⟨List.mem_cons.mpr (Or.inl rfl), d0, ext0, hget0, hcmp⟩
              · obtain ⟨hm1, d1, ext1, hg1, hc1⟩ := ih2 p hmem
                exact ⟨List.mem_cons.mpr (Or.inr hm1), d1, ext1, hg1, hc1⟩

/-!
## Concrete example programs
-/

/-- An outer function environment holding one native function. -/
def mainFE : CompilationFunctionEnvironment := [[("F-add", FunctionDefinitionNode.native "F-add")]]

/-- A definition with two chained applications (the second consumes the
first's output by reference) and a literal referenced both directly and as a
body expression. -/
def mainDefn : TreeFunctionDefinitionNode :=
  .mk "F-main" [] []
    [ .yieldExpr 0 (.application "A-b" [⟨"S-b", none⟩] (.fref "F-add")
        [.streamReference "S-a", .numberLiteral "S-two" 2] []),
      .streamExpr (.application "A-a" [⟨"S-a", none⟩] (.fref "F-add")
        [.numberLiteral "S-one" 1, .streamReference "S-sh"] []),
      .streamExpr (.numberLiteral "S-sh" 5) ]

/-- What compiling `mainDefn` produces: the dependency `A-a` is emitted
before its consumer `A-b`, and the shared literal appears once. -/
def mainCompiled : CompiledDefinition :=
  .mk [] []
    [⟨"S-one", .num 1⟩, ⟨"S-sh", .num 5⟩, ⟨"S-two", .num 2⟩]
    [⟨["S-a"], "A-a", "F-add", ["S-one", "S-sh"], []⟩,
     ⟨["S-b"], "A-b", "F-add", ["S-a", "S-two"], []⟩]
    []
    [some "S-b"]

/-- The spec's cycle scenario: stream A's defining application consumes a
reference to stream B and vice versa. -/
def cycleDefn : TreeFunctionDefinitionNode :=
  .mk "F-main" [] []
    [ .yieldExpr 0 (.application "A-a" [⟨"S-a", none⟩] (.fref "F-f")
        [.streamReference "S-b"] []),
      .streamExpr (.application "A-b" [⟨"S-b", none⟩] (.fref "F-f")
        [.streamReference "S-a"] []) ]

/-- A definition whose only yield populates index 1, leaving index 0 a
hole. -/
def gapDefn : TreeFunctionDefinitionNode :=
  .mk "F-main" [] [] [.yieldExpr 1 (.numberLiteral "S-a" 3)]

/-- A definition whose body defines a stream id that is already bound in the
enclosing (outer) stream frame. -/
def shadowDefn : TreeFunctionDefinitionNode :=
  .mk "F-inner" [] [] [.yieldExpr 0 (.numberLiteral "S-x" 1)]

def c8FE : CompilationFunctionEnvironment :=
  [[("F-apply", FunctionDefinitionNode.native "F-apply")]]

/-- A definition with a locally defined tree function (inline function
argument) that is never applied inside the scope. -/
def c8Defn : TreeFunctionDefinitionNode :=
  .mk "F-main" [] []
    [ .yieldExpr 0 (.application "A-a" [⟨"S-a", none⟩] (.fref "F-apply")
        [] [.fdef (.tree (.mk "F-inner" [] [] [.yieldExpr 0 (.numberLiteral "S-i" 1)]))]) ]

/-- What compiling `c8Defn` produces for the enclosing scope. -/
def c8Compiled : CompiledDefinition :=
  .mk [] [] []
    [⟨["S-a"], "A-a", "F-apply", [], ["F-inner"]⟩]
    [("F-inner", .mk [] [] [⟨"S-i", .num 1⟩] [] [] [some "S-i"])]
    [some "S-a"]

/-- An environment whose frames are all empty contains no id. -/
theorem Env.has_all_empty {V : Type} : ∀ (env : Env V), (∀ fr ∈ env, fr = []) →
    ∀ s, Env.has env s = false := by
  intro env
  induction env with
  | nil => intro _ s; rfl
  | cons fr rest ih =>
      intro h s
      have hfr : fr = [] := h fr (List.mem_cons.mpr (Or.inl rfl))
      subst hfr
      simp only [Env.has, List.any_cons]
      have := ih (fun x hx => h x (List.mem_cons.mpr (Or.inr hx))) s
      simp only [Env.has] at this
      rw [this]
      rfl

/-!
## The claims
-/

/-- C1: every compiled definition's application list is in
dependency-respecting topological order: a stream-argument id consumed at
position `i` that is produced by any spec of the list belongs to a spec at a
position strictly below `i`. -/
theorem c1_compiled_apps_topologically_ordered {fuel : Nat}
    {defn : TreeFunctionDefinitionNode} {outerSE : CompilationStreamEnvironment}
    {outerFE : CompilationFunctionEnvironment} {cd : CompiledDefinition}
    {extIds : List StreamID}
    (h : compileTreeDefinition fuel defn outerSE outerFE = .ok (cd, extIds)) :
    TopoOrdered cd.apps := by
  obtain ⟨stc, st, fr, _, _, hgood, _, happs, _⟩ := compileTree_ok_elim h
  rw [happs]
  exact TopoOkList.topoOrdered hgood

theorem c1_witness_main_example : TopoOrdered mainCompiled.apps :=
  c1_compiled_apps_topologically_ordered
    (rfl : compileTreeDefinition 9 mainDefn [[]] mainFE = .ok (mainCompiled, []))

/-- C7: resolution is idempotent under permanent marks: the emitted output
never lists a stream id twice, across the constant-stream specs and all the
output ids of all application specs. -/
theorem c7_emitted_stream_ids_nodup {fuel : Nat}
    {defn : TreeFunctionDefinitionNode} {outerSE : CompilationStreamEnvironment}
    {outerFE : CompilationFunctionEnvironment} {cd : CompiledDefinition}
    {extIds : List StreamID}
    (h : compileTreeDefinition fuel defn outerSE outerFE = .ok (cd, extIds)) :
    (cd.constStreams.map ConstStreamSpec.sid ++ cd.apps.flatMap AppSpec.sids).Nodup := by
  obtain ⟨stc, st, fr, _, _, hgood, hconsts, happs, _⟩ := compileTree_ok_elim h
  rw [hconsts, happs]
  exact hgood.nodupEmitted

theorem c7_witness_shared_literal :
    (mainCompiled.constStreams.map ConstStreamSpec.sid ++
      mainCompiled.apps.flatMap AppSpec.sids).Nodup :=
  c7_emitted_stream_ids_nodup
    (rfl : compileTreeDefinition 9 mainDefn [[]] mainFE = .ok (mainCompiled, []))

/-- C9: at the computed structural fuel bound, `compileTreeDefinition`
always terminates with a result that is not the fuel-exhaustion marker: it
returns a compiled definition or throws one of the source's errors, on every
input tree and environment. -/
theorem c9_compiler_terminates_at_bound :
    ∀ (defn : TreeFunctionDefinitionNode) (outerSE : CompilationStreamEnvironment)
      (outerFE : CompilationFunctionEnvironment),
    isOutOfFuel (compileTreeDefinition (tfdBound defn) defn outerSE outerFE) = false := by
  intro defn se fe
  have h := compileTree_fuel (tfdBound defn) defn se fe (Nat.le_refl _)
  cases hr : compileTreeDefinition (tfdBound defn) defn se fe with
  | ok v => simp [isOutOfFuel]
  | error e =>
      cases e with
      | compilationError m => simp [isOutOfFuel]
      | internalError m => simp [isOutOfFuel]
      | outOfFuel => exact absurd hr h

/-- C10: a `compileTreeDefinition` call whose outer stream environment has
only empty frames (as the root call of `compileGlobalTreeDefinition` does)
returns an empty externally-referenced-stream-ids set, so the global closure
check can never fire. -/
theorem c10_root_external_set_empty {fuel : Nat}
    {defn : TreeFunctionDefinitionNode} {outerSE : CompilationStreamEnvironment}
    {outerFE : CompilationFunctionEnvironment} {cd : CompiledDefinition}
    {extIds : List StreamID}
    (hemp : ∀ fr2 ∈ outerSE, fr2 = [])
    (h : compileTreeDefinition fuel defn outerSE outerFE = .ok (cd, extIds)) :
    extIds = [] := by
  obtain ⟨stc, st, fr, hf, hmirror, hgood, _, _, hext⟩ := compileTree_ok_elim h
  rw [hext]
  cases hx : st.externalReferencedStreamIds with
  | nil => rfl
  | cons sid rest =>
      exfalso
      have hs : sid ∈ st.externalReferencedStreamIds := by rw [hx]; simp
      obtain ⟨hnotloc, hhas⟩ := hgood.ext sid hs
      have hnotloc2 : sid ∉ stc.localStreamIds := hnotloc
      have hhas2 : Env.has stc.streamEnvironment sid = true := hhas
      rw [hf] at hhas2
      simp only [Env.has, List.any_cons] at hhas2
      have houter := Env.has_all_empty outerSE hemp sid
      simp only [Env.has] at houter
      rw [houter] at hhas2
      simp only [Bool.or_false] at hhas2
      exact hnotloc2 ((hmirror sid).mpr hhas2)

theorem c10_witness_main_example : ([] : List StreamID) = [] :=
  c10_root_external_set_empty (by decide)
    (rfl : compileTreeDefinition 9 mainDefn [[]] mainFE = .ok (mainCompiled, []))

/-- C2: invoking `traverseStreamExpr` on a node already temporary-marked
(and not yet permanently marked) fails immediately with the dependency-cycle
`CompilationError`; in particular the spec's concrete two-application cycle
makes the whole global compilation return that error and nothing else. -/
theorem c2_temporary_mark_reentry_is_cycle_error :
    (∀ (ctx : TraverseCtx) (fuel : Nat) (node : StreamExpressionNode) (st : TraverseState),
        node ∈ st.temporaryMarked → node ∉ st.permanentMarked →
        traverseStreamExpr ctx (fuel + 1) node st = .error (.compilationError "graph cycle")) ∧
    compileGlobalTreeDefinition 10 cycleDefn [("F-f", FunctionDefinitionNode.native "F-f")] =
      .error (.compilationError "graph cycle") := by
  constructor
  · intro ctx fuel node st htemp hperm
    cases node <;>
      · simp only [traverseStreamExpr]
        rw [if_neg hperm, if_pos htemp]
  · rfl

/-- C3: the source's body pass never checks the yield-id array for holes
(the `TODO` at its end): a definition whose only yield populates index 1 is
accepted, and `compileTreeDefinition` returns a compiled definition whose
yield-id list contains a hole rather than failing. -/
theorem c3_yield_gap_returns_holed_definition :
    ∃ cd : CompiledDefinition, compileTreeDefinition 2 gapDefn [[]] [[]] = .ok (cd, []) ∧
      none ∈ cd.yieldIds ∧ cd.yieldIds.length = 2 := by
  refine ⟨.mk [] [] [⟨"S-a", .num 3⟩] [] [] [none, some "S-a"], rfl, ?_, rfl⟩
  simp [CompiledDefinition.yieldIds]

/-- C4: the three behaviours of a stream reference: a local target either
short-circuits on the parameter marker or recursively resolves the defining
node; a non-local id visible in the chain goes into the
externally-referenced set without recursion; an id visible nowhere is an
unresolved-reference `CompilationError`. -/
theorem c4_stream_reference_three_cases :
    ∀ (ctx : TraverseCtx) (fuel : Nat) (ref : StreamID) (st : TraverseState),
    (.streamReference ref : StreamExpressionNode) ∉ st.permanentMarked →
    (.streamReference ref : StreamExpressionNode) ∉ st.temporaryMarked →
    (ref ∈ ctx.localStreamIds → Env.get ctx.streamEnvironment ref = some none →
       traverseStreamExpr ctx (fuel + 1) (.streamReference ref) st =
         .ok { st with permanentMarked := List.insert (StreamExpressionNode.streamReference ref) st.permanentMarked }) ∧
    (∀ target, ref ∈ ctx.localStreamIds →
       Env.get ctx.streamEnvironment ref = some (some target) →
       (∀ er, traverseStreamExpr ctx fuel target { st with temporaryMarked := List.insert (StreamExpressionNode.streamReference ref) st.temporaryMarked } = .error er →
          traverseStreamExpr ctx (fuel + 1) (.streamReference ref) st = .error er) ∧
       (∀ st2, traverseStreamExpr ctx fuel target { st with temporaryMarked := List.insert (StreamExpressionNode.streamReference ref) st.temporaryMarked } = .ok st2 →
          traverseStreamExpr ctx (fuel + 1) (.streamReference ref) st =
            .ok { st2 with
                  temporaryMarked := st2.temporaryMarked.erase (StreamExpressionNode.streamReference ref),
                  permanentMarked := List.insert (StreamExpressionNode.streamReference ref) st2.permanentMarked })) ∧
    (ref ∉ ctx.localStreamIds → Env.has ctx.streamEnvironment ref = true →
       traverseStreamExpr ctx (fuel + 1) (.streamReference ref) st =
         .ok { st with
               externalReferencedStreamIds := List.insert ref st.externalReferencedStreamIds,
               permanentMarked := List.insert (StreamExpressionNode.streamReference ref) st.permanentMarked }) ∧
    (ref ∉ ctx.localStreamIds → Env.has ctx.streamEnvironment ref = false →
       traverseStreamExpr ctx (fuel + 1) (.streamReference ref) st =
         .error (.compilationError "")) := by
  intro ctx fuel ref st hperm htemp
  refine ⟨?_, ?_, ?_, ?_⟩
  · intro hloc hget
    simp only [traverseStreamExpr]
    rw [if_neg hperm, if_neg htemp, if_pos hloc, hget]
  · intro target hloc hget
    have hstep : traverseStreamExpr ctx (fuel + 1) (.streamReference ref) st =
        (match traverseStreamExpr ctx fuel target { st with temporaryMarked := List.insert (StreamExpressionNode.streamReference ref) st.temporaryMarked } with
         | .error e => .error e
         | .ok st2 =>
             .ok { st2 with
                   temporaryMarked := st2.temporaryMarked.erase (StreamExpressionNode.streamReference ref),
                   permanentMarked := List.insert (StreamExpressionNode.streamReference ref) st2.permanentMarked }) := by
      simp only [traverseStreamExpr]
      rw [if_neg hperm, if_neg htemp, if_pos hloc, hget]
    constructor
    · intro er herr
      rw [hstep, herr]
    · intro st2 hok
      rw [hstep, hok]
  · intro hloc hhas
    simp only [traverseStreamExpr]
    rw [if_neg hperm, if_neg htemp, if_neg hloc, if_pos hhas]
  · intro hloc hhas
    simp only [traverseStreamExpr]
    rw [if_neg hperm, if_neg htemp, if_neg hloc, if_neg (by simp [hhas])]

def ctxC4 : TraverseCtx := ⟨[], [[("S-x", (none : Option StreamExpressionNode))]], [[]]⟩

theorem c4_witness_external_reference :
    traverseStreamExpr ctxC4 1 (.streamReference "S-x") initTraverseState =
      .ok { initTraverseState with
            externalReferencedStreamIds := List.insert "S-x" initTraverseState.externalReferencedStreamIds,
            permanentMarked := List.insert (StreamExpressionNode.streamReference "S-x") initTraverseState.permanentMarked } := by
  have h := c4_stream_reference_three_cases ctxC4 0 "S-x" initTraverseState
    (by decide) (by decide)
  exact h.2.2.1 (by decide) (by decide)

/-- C5: the global entry compiles the main definition against an empty root
stream environment and the seeded function environment, throws exactly when
the returned externally-referenced-stream-ids set is non-empty, and
otherwise returns that compiled definition. -/
theorem c5_global_entry_closure_check :
    ∀ (fuel : Nat) (defn : TreeFunctionDefinitionNode)
      (globals : List (FunctionID × FunctionDefinitionNode))
      (env : CompilationFunctionEnvironment) (cd : CompiledDefinition)
      (extIds : List StreamID),
    seedGlobalFunctionEnvironment globals [[]] = some env →
    compileTreeDefinition fuel defn [[]] ([] :: env) = .ok (cd, extIds) →
    (0 < extIds.length → compileGlobalTreeDefinition fuel defn globals =
        .error (.internalError "")) ∧
    (extIds.length = 0 → compileGlobalTreeDefinition fuel defn globals = .ok cd) := by
  intro fuel defn globals env cd extIds hseed hcomp
  constructor
  · intro hpos
    simp only [compileGlobalTreeDefinition, hseed, hcomp]
    rw [if_pos hpos]
  · intro hzero
    simp only [compileGlobalTreeDefinition, hseed, hcomp]
    rw [if_neg (by omega)]

theorem c5_witness_main_example :
    compileGlobalTreeDefinition 9 mainDefn [("F-add", FunctionDefinitionNode.native "F-add")] =
      .ok mainCompiled :=
  (c5_global_entry_closure_check 9 mainDefn
    [("F-add", FunctionDefinitionNode.native "F-add")]
    [[("F-add", FunctionDefinitionNode.native "F-add")]] mainCompiled []
    rfl rfl).2 rfl

/-- C6 (corrected): the registration guard of the collector is chain-wide,
not local-frame-only: registering a stream or function id fails with the
duplicate-id error exactly when the id is visible anywhere in the
environment chain, so an id bound only in an enclosing frame also makes
registration fail. -/
theorem c6_registration_guard_is_chain_wide :
    ∀ (σ : CollectState) (sid : StreamID) (v : Option StreamExpressionNode)
      (d : FunctionDefinitionNode),
      (registerStreamDef σ sid v = .error (.internalError "must be unique") ↔
        Env.has σ.streamEnvironment sid = true) ∧
      (registerFunctionDef σ d = .error (.internalError "must be unique") ↔
        Env.has σ.functionEnvironment d.fid = true) := by
  intro σ sid v d
  constructor
  · by_cases h : Env.has σ.streamEnvironment sid = true
    · simp [registerStreamDef, h]
    · simp [registerStreamDef, h]
  · by_cases h : Env.has σ.functionEnvironment d.fid = true
    · simp [registerFunctionDef, h]
    · simp [registerFunctionDef, h]

theorem c6_counterexample_outer_frame_id_fails :
    frameHas ([] : Frame (Option StreamExpressionNode)) "S-x" = false ∧
    Env.has [[("S-x", (none : Option StreamExpressionNode))]] "S-x" = true ∧
    compileTreeDefinition 2 shadowDefn [[("S-x", none)]] [[]] =
      .error (.internalError "must be unique") :=
  ⟨rfl, rfl, rfl⟩

/-- C8: on a successful compilation, every locally collected function id
whose definition is a tree definition was recursively compiled and stored in
the nested-definitions list under that id (applied or not); every
nested-definitions entry arises that way, so natives are skipped; and the
enclosing application list is exactly what the body pass alone computes from
the initial traversal state, unaffected by the nested compilations. -/
theorem c8_local_tree_definitions_all_compiled {fuel : Nat}
    {defn : TreeFunctionDefinitionNode} {outerSE : CompilationStreamEnvironment}
    {outerFE : CompilationFunctionEnvironment} {cd : CompiledDefinition}
    {extIds : List StreamID}
    (h : compileTreeDefinition (fuel + 1) defn outerSE outerFE = .ok (cd, extIds)) :
    ∃ st1 stc,
      registerSparams defn.sparams ⟨[] :: outerSE, [] :: outerFE, [], []⟩ = .ok st1 ∧
      visitBodyToFindLocals defn.bodyExprs st1 = .ok stc ∧
      (∀ fid ∈ stc.localFunctionIds, ∀ d,
          Env.get stc.functionEnvironment fid = some (.tree d) →
          ∃ cdn extn,
            compileTreeDefinition fuel d stc.streamEnvironment stc.functionEnvironment =
              .ok (cdn, extn) ∧
            (fid, cdn) ∈ cd.localDefs) ∧
      (∀ p ∈ cd.localDefs, p.1 ∈ stc.localFunctionIds ∧
          ∃ d extn, Env.get stc.functionEnvironment p.1 = some (.tree d) ∧
            compileTreeDefinition fuel d stc.streamEnvironment stc.functionEnvironment =
              .ok (p.2, extn)) ∧
      ∃ st yi,
        bodyPass ⟨stc.localStreamIds, stc.streamEnvironment, stc.functionEnvironment⟩
          (fuel + 1) defn.bodyExprs initTraverseState [] = .ok (st, yi) ∧
        cd.apps = st.apps := by
  simp only [compileTreeDefinition] at h
  split at h
  · cases h
  · rename_i st1 h1
    split at h
    · cases h
    · rename_i stc h2
      split at h
      · cases h
      · rename_i localDefs h3
        split at h
        · cases h
        · rename_i st yieldIds h4
          cases h
          obtain ⟨hall, hback⟩ := compileLocalDefsWith_spec _ stc.localFunctionIds
            stc.functionEnvironment stc.streamEnvironment localDefs h3
          exact ⟨st1, stc, h1, h2, hall, hback, st, yieldIds, h4, rfl⟩

theorem c8_witness_unapplied_local_function :
    ∃ st1 stc,
      registerSparams c8Defn.sparams ⟨[] :: [[]], [] :: c8FE, [], []⟩ = .ok st1 ∧
      visitBodyToFindLocals c8Defn.bodyExprs st1 = .ok stc ∧
      (∀ fid ∈ stc.localFunctionIds, ∀ d,
          Env.get stc.functionEnvironment fid = some (.tree d) →
          ∃ cdn extn,
            compileTreeDefinition 4 d stc.streamEnvironment stc.functionEnvironment =
              .ok (cdn, extn) ∧
            (fid, cdn) ∈ c8Compiled.localDefs) ∧
      (∀ p ∈ c8Compiled.localDefs, p.1 ∈ stc.localFunctionIds ∧
          ∃ d extn, Env.get stc.functionEnvironment p.1 = some (.tree d) ∧
            compileTreeDefinition 4 d stc.streamEnvironment stc.functionEnvironment =
              .ok (p.2, extn)) ∧
      ∃ st yi,
        bodyPass ⟨stc.localStreamIds, stc.streamEnvironment, stc.functionEnvironment⟩
          5 c8Defn.bodyExprs initTraverseState [] = .ok (st, yi) ∧
        c8Compiled.apps = st.apps :=
  c8_local_tree_definitions_all_compiled
    (rfl : compileTreeDefinition 5 c8Defn [[]] c8FE = .ok (c8Compiled, []))

end Chinook
